import Mathlib

/-!
Verification of the HTML-to-Markdown converter
(`packages/process/html/__main__.py`).

Python strings are modelled as `List Char` (`PyStr`); the BeautifulSoup
DOM is modelled by the `Node` tree.  Library-provided pieces
(markdownify's default pipe-table converter, the HTML serializer used by
`_sanitize_table_html`) are passed as function parameters, since they are
external collaborators of the code under analysis.
-/

namespace HtmlToMd

/-- Python `str` modelled as a list of characters. -/
abbrev PyStr := List Char

/-- Convert a Lean string literal to the `PyStr` model. -/
def pys (s : String) : PyStr := s.data

/-- Python's notion of whitespace (`str.strip`, regex `\s`), ASCII part. -/
def pyIsSpace (c : Char) : Bool :=
  c = ' ' || c = '\t' || c = '\n' || c = '\r' || c = '\x0b' || c = '\x0c'

/-- `s.startswith(pat)`. -/
def startsWithL (pat s : PyStr) : Bool := List.isPrefixOf pat s

/-- `s.endswith(pat)`. -/
def endsWithL (pat s : PyStr) : Bool := List.isSuffixOf pat s

/-- `pat in s` (substring containment). -/
def containsSub (pat : PyStr) : PyStr → Bool
  | [] => pat.isEmpty
  | c :: rest => startsWithL pat (c :: rest) || containsSub pat rest

/-- `s.lstrip()`. -/
def pyLstrip (l : PyStr) : PyStr := l.dropWhile pyIsSpace

/-- Strip characters satisfying `p` from the right end. -/
def pyRstripBy (p : Char → Bool) (l : PyStr) : PyStr := (l.reverse.dropWhile p).reverse

/-- `s.rstrip()`. -/
def pyRstrip (l : PyStr) : PyStr := pyRstripBy pyIsSpace l

/-- `s.strip()`. -/
def pyStrip (l : PyStr) : PyStr := pyRstrip (pyLstrip l)

/-- `s.rstrip('|')`. -/
def pyRstripPipes (l : PyStr) : PyStr := pyRstripBy (fun c => c = '|') l

/-- `s.count(c)` for a single character. -/
def countChar (c : Char) (l : PyStr) : Nat := l.countP (fun x => x = c)

/-- `s.split(c)` for a single-character separator (keeps empty parts). -/
def splitChar (c : Char) : PyStr → List PyStr
  | [] => [[]]
  | x :: rest =>
    if x = c then [] :: splitChar c rest
    else
      match splitChar c rest with
      | p :: ps => (x :: p) :: ps
      | [] => [[x]]

/-- `sep.join(parts)`. -/
def joinWith (sep : PyStr) : List PyStr → PyStr
  | [] => []
  | [a] => a
  | a :: rest => a ++ sep ++ joinWith sep rest

/-- Helper for `re.sub(r"\s+", " ", s)`: `inRun` records whether we are
inside a whitespace run whose single replacement space was already emitted. -/
def collapseWSAux (inRun : Bool) : PyStr → PyStr
  | [] => []
  | c :: rest =>
    if pyIsSpace c then
      if inRun then collapseWSAux true rest else ' ' :: collapseWSAux true rest
    else c :: collapseWSAux false rest

/-- `re.sub(r"\s+", " ", s)`. -/
def collapseWS (l : PyStr) : PyStr := collapseWSAux false l

/-- `s.replace(a, b)` for single characters. -/
def replaceChar (a b : Char) (l : PyStr) : PyStr := l.map (fun c => if c = a then b else c)

/-- `escape_pipes` (line 178): `s.replace('|', '\\|')`. -/
def escapePipes (l : PyStr) : PyStr :=
  l.foldr (fun c acc => if c = '|' then '\\' :: '|' :: acc else c :: acc) []

/-- Decimal rendering of a natural number, as used by f-strings. -/
def natStr (n : Nat) : PyStr := (Nat.repr n).data

/-- BeautifulSoup DOM node: a text node or an element with a tag and
children.  Attributes are not modelled: none of the operations embedded
here reads them (the sanitizer, which does, is kept as a parameter). -/
inductive Node where
  | text : PyStr → Node
  | elem : PyStr → List Node → Node
deriving Repr

/-- Tag name of a node (empty for text nodes, which have no name). -/
def nodeTag : Node → PyStr
  | .text _ => []
  | .elem t _ => t

/-- Is this node a `<table>` element? -/
def isTable (n : Node) : Bool := nodeTag n == pys "table"

/-- Direct children of a node. -/
def childrenOf : Node → List Node
  | .text _ => []
  | .elem _ cs => cs

mutual

/-- `el.find_all('table')`: all descendant tables, in document order
(a table nested inside another found table is also listed). -/
def findTablesN : Node → List Node
  | .text _ => []
  | .elem _ cs => findTablesL cs

def findTablesL : List Node → List Node
  | [] => []
  | n :: ns => (if isTable n then [n] else []) ++ findTablesN n ++ findTablesL ns

end

mutual

/-- `el.find(tag)`: first descendant element with the given tag, preorder. -/
def findFirstN (tag : PyStr) : Node → Option Node
  | .text _ => none
  | .elem _ cs => findFirstL tag cs

def findFirstL (tag : PyStr) : List Node → Option Node
  | [] => none
  | n :: ns =>
    if nodeTag n == tag then some n
    else
      match findFirstN tag n with
      | some m => some m
      | none => findFirstL tag ns

end

mutual

/-- All text-node strings below a node, in document order. -/
def getTextsN : Node → List PyStr
  | .text s => [s]
  | .elem _ cs => getTextsL cs

def getTextsL : List Node → List PyStr
  | [] => []
  | n :: ns => getTextsN n ++ getTextsL ns

end

/-- `el.get_text(sep, strip=True)`: strip each string, drop the empty
ones, join with the separator. -/
def getTextStrip (sep : PyStr) (n : Node) : PyStr :=
  joinWith sep (((getTextsN n).map pyStrip).filter (fun s => !s.isEmpty))

mutual

/-- Remove every descendant `<table>` (the `decompose()` loop in
`text_without_nested`, lines 183-185). -/
def deleteTablesN : Node → Node
  | .text s => .text s
  | .elem t cs => .elem t (deleteTablesL cs)

def deleteTablesL : List Node → List Node
  | [] => []
  | n :: ns => (if isTable n then [] else [deleteTablesN n]) ++ deleteTablesL ns

end

mutual

/-- Replace every text node lying strictly inside a `<table>` element by
the empty text (`b` records being inside a table).  Spec-side helper used
to express that nested-table content never leaks into a cell's text. -/
def eraseTextsN (b : Bool) : Node → Node
  | .text s => .text (if b then [] else s)
  | .elem t cs => .elem t (eraseTextsL (b || (t == pys "table")) cs)

def eraseTextsL (b : Bool) : List Node → List Node
  | [] => []
  | n :: ns => eraseTextsN b n :: eraseTextsL b ns

end

/-- Erase all text content of tables nested below this node. -/
def eraseNestedTableTexts (n : Node) : Node := eraseTextsN false n

/-- `text_without_nested` (lines 181-186): clone, drop descendant tables,
then `get_text(" ", strip=True)`. -/
def textWithoutNested (cell : Node) : PyStr :=
  getTextStrip (pys " ") (deleteTablesN cell)

/-- `el.find("table") is not None` (line 169). -/
def hasNestedTable (el : Node) : Bool := (findFirstN (pys "table") el).isSome

/-- Direct children whose tag is one of `tags`
(`find_all([...], recursive=False)`). -/
def directTagged (tags : List PyStr) (n : Node) : List Node :=
  (childrenOf n).filter (fun c => tags.any (fun t => nodeTag c == t))

/-- `find_all('tr', recursive=False)`. -/
def directTRs (n : Node) : List Node := directTagged [pys "tr"] n

/-- `cells_in_row` (lines 247-248): `row.find_all(['th','td'], recursive=False)`. -/
def cellsInRow (r : Node) : List Node := directTagged [pys "th", pys "td"] r

/-- `iter_rows` (lines 233-245): rows from the first descendant `thead`,
then the first descendant `tbody`, else the table's direct `tr` children. -/
def iterRows (t : Node) : List Node :=
  let th := findFirstN (pys "thead") t
  let tb := findFirstN (pys "tbody") t
  (match th with | some h => directTRs h | none => [])
    ++ (match tb with | some b => directTRs b | none => [])
    ++ (match th, tb with | none, none => directTRs t | _, _ => [])

/-- Python `s or ' '` on strings: replace the empty string by a space. -/
def orSpace (s : PyStr) : PyStr := if s.isEmpty then pys " " else s

/-- `'| ' + ' | '.join(texts) + ' |'`. -/
def mkRowLine (ts : List PyStr) : PyStr :=
  pys "| " ++ joinWith (pys " | ") ts ++ pys " |"

/-- `'| ' + ' | '.join(['---'] * n) + ' |'`. -/
def sepRowLine (n : Nat) : PyStr := mkRowLine (List.replicate n (pys "---"))

/-- Markdown lines of a nested table without further nesting
(lines 217-226): first row, then a separator sized to the first row,
then the remaining rows. -/
def nestedTableLines : List Node → List PyStr
  | [] => []
  | r0 :: rest =>
    let ts0 := (cellsInRow r0).map (fun c => orSpace (escapePipes (getTextStrip (pys " ") c)))
    mkRowLine ts0 :: sepRowLine ts0.length ::
      rest.map (fun r =>
        mkRowLine ((cellsInRow r).map (fun c => orSpace (escapePipes (getTextStrip (pys " ") c)))))

/-- `convert_nested_table_to_markdown` (lines 188-231).  `san` is the
sanitized-HTML fallback `_sanitize_table_html(str(t))`, passed as a
parameter because it depends on the external HTML serializer. -/
def convertNestedTableToMarkdown (san : Node → PyStr) (t : Node) : PyStr :=
  if hasNestedTable t then san t
  else
    let rows := iterRows t
    if rows.isEmpty then san t
    else joinWith (pys "\n") (nestedTableLines rows)

/-- The `[See Table N](#table-N)` reference (line 289). -/
def seeTable (n : Nat) : PyStr :=
  pys "[See Table " ++ natStr n ++ pys "](#table-" ++ natStr n ++ pys ")"

/-- The `[See Tables N-M](#table-N)` reference (line 291). -/
def seeTables (a b : Nat) : PyStr :=
  pys "[See Tables " ++ natStr a ++ pys "-" ++ natStr b ++ pys "](#table-" ++ natStr a ++ pys ")"

/-- The `**Table N:**` block appended for one nested table (line 286). -/
def mkBlock (i : Nat) (md : PyStr) : PyStr :=
  pys "**Table " ++ natStr i ++ pys ":**\n\n" ++ pyStrip md ++ pys "\n"

/-- The `for t in nested_tables` loop of lines 283-287: emit one labelled
block per nested table, incrementing `nested_idx`. -/
def processNested (san : Node → PyStr) (idx : Nat) : List Node → List PyStr × Nat
  | [] => ([], idx)
  | t :: ts =>
    let b := mkBlock idx (convertNestedTableToMarkdown san t)
    let (bs, idx') := processNested san (idx + 1) ts
    (b :: bs, idx')

/-- Spec-side view of the same loop: consecutive labels starting at `idx`. -/
def labelFrom (san : Node → PyStr) (idx : Nat) : List Node → List PyStr
  | [] => []
  | t :: ts => mkBlock idx (convertNestedTableToMarkdown san t) :: labelFrom san (idx + 1) ts

/-- Processing of one cell of a body row (lines 277-296): cell text with
nested tables removed, plus a reference marker and labelled blocks when
the cell contains nested tables.  Returns (cell text, blocks, next index). -/
def processCell (san : Node → PyStr) (idx : Nat) (c : Node) : PyStr × List PyStr × Nat :=
  let base := escapePipes (textWithoutNested c)
  let ts := findTablesN c
  if ts.isEmpty then (base, [], idx)
  else
    let r := processNested san idx ts
    let ref := if idx = r.2 - 1 then seeTable idx else seeTables idx (r.2 - 1)
    ((if base.isEmpty then ref else base ++ pys " (" ++ ref ++ pys ")"), r.1, r.2)

/-- The `for c in cells` loop (lines 275-296). -/
def processCells (san : Node → PyStr) (idx : Nat) : List Node → List PyStr × List PyStr × Nat
  | [] => ([], [], idx)
  | c :: cs =>
    let r1 := processCell san idx c
    let r2 := processCells san r1.2.2 cs
    (r1.1 :: r2.1, r1.2.1 ++ r2.2.1, r2.2.2)

/-- One body row (lines 273-303): process the cells, then pad with empty
strings or truncate to the header width (lines 297-301).  Returns the
padded cell texts (the emitted line is `mkRowLine` of them). -/
def processRow (san : Node → PyStr) (hl : Nat) (idx : Nat) (r : Node) :
    List PyStr × List PyStr × Nat :=
  let rc := processCells san idx (cellsInRow r)
  let texts' :=
    if rc.1.length < hl then rc.1 ++ List.replicate (hl - rc.1.length) []
    else rc.1.take hl
  (texts', rc.2.1, rc.2.2)

/-- The loop over all body rows, threading `nested_idx`. -/
def processRows (san : Node → PyStr) (hl : Nat) (idx : Nat) :
    List Node → List (List PyStr) × List PyStr × Nat
  | [] => ([], [], idx)
  | r :: rs =>
    let r1 := processRow san hl idx r
    let r2 := processRows san hl r1.2.2 rs
    (r1.1 :: r2.1, r1.2.1 ++ r2.2.1, r2.2.2)

/-- All nested tables of the body rows, in row-then-cell document order. -/
def nestedTablesOf (rows : List Node) : List Node :=
  rows.flatMap (fun r => (cellsInRow r).flatMap findTablesN)

/-- The `append` strategy for a table with nesting (lines 175-308). -/
def appendFlatten (san : Node → PyStr) (el : Node) : PyStr :=
  match iterRows el with
  | [] => []
  | r0 :: rest =>
    let firstCells := cellsInRow r0
    let isHdr := firstCells.any (fun c => nodeTag c == pys "th")
    let header :=
      if isHdr then firstCells.map (fun c => orSpace (escapePipes (textWithoutNested c)))
      else List.replicate firstCells.length (pys " ")
    let body := if isHdr then rest else r0 :: rest
    let pr := processRows san header.length 1 body
    let mdLines := mkRowLine header :: sepRowLine header.length :: pr.1.map mkRowLine
    let out := joinWith (pys "\n") mdLines
    let out := if pr.2.1.isEmpty then out
      else out ++ pys "\n\n" ++ joinWith (pys "\n\n") pr.2.1
    out ++ pys "\n"

/-- The body of the `try:` block of `convert_table` (lines 161-308):
`some` when the body `return`s, `none` when it falls through to the
default conversion of line 313. -/
def tryConvertTableBody (san : Node → PyStr) (preserve : Bool) (handling : PyStr)
    (el : Node) : Option PyStr :=
  if preserve then some (pys "\n\n" ++ san el ++ pys "\n\n")
  else if hasNestedTable el then
    some (if handling == pys "html" then pys "\n\n" ++ san el ++ pys "\n\n"
          else appendFlatten san el)
  else none

/-- The `try/except` shell of `convert_table` (lines 161, 309-313): a body
that returns a string, falls through, or raises; on fall-through or on any
exception the outer table goes to the default converter `dflt`
(markdownify's pipe-table conversion, an external collaborator). -/
def convertTableWith (body : Node → Except PyStr (Option PyStr)) (dflt : Node → PyStr)
    (el : Node) : PyStr :=
  match body el with
  | .ok (some s) => s
  | .ok none => dflt el
  | .error _ => dflt el

/-- `convert_table` (lines 145-313), with the sanitizer and the default
converter as parameters.  The pure translated body never raises. -/
def convertTable (san : Node → PyStr) (dflt : Node → PyStr) (preserve : Bool)
    (handling : PyStr) (el : Node) : PyStr :=
  convertTableWith (fun e => .ok (tryConvertTableBody san preserve handling e)) dflt el

/-! ### The post-processor's table-row repair pass (`_fix_markdown_tables`) -/

/-- Line 480: `'|' in line and line.strip().startswith('|') and
line.strip().endswith('|')`. -/
def isTableRow (line : PyStr) : Bool :=
  line.contains '|' && startsWithL (pys "|") (pyStrip line)
    && endsWithL (pys "|") (pyStrip line)

/-- The three stop conditions of the look-ahead loop (lines 493-507),
on the stripped next line `nl`. -/
def stopCond (tableRow nl : PyStr) : Bool :=
  (nl.contains '|' && containsSub (pys "---") nl)
  || (nl.contains '|' && startsWithL (pys "|") nl && endsWithL (pys "|") nl
      && countChar '|' tableRow ≤ countChar '|' nl)
  || (nl.isEmpty || !(nl.contains '|'))

/-- Merging one continuation line into the current row (lines 509-516). -/
def mergeCont (tr nl : PyStr) : PyStr :=
  let t := pyRstrip (pyRstripPipes tr) ++ pys " " ++ nl
  if endsWithL (pys "|") t then t else t ++ pys " |"

/-- The look-ahead absorption loop (lines 491-518): returns the merged
row and the unconsumed rest of the lines. -/
def absorb (tr : PyStr) : List PyStr → PyStr × List PyStr
  | [] => (tr, [])
  | l :: rest =>
    let nl := pyStrip l
    if stopCond tr nl then (tr, l :: rest)
    else absorb (mergeCont tr nl) rest

/-- The lines consumed by `absorb` (spec-side helper). -/
def absorbedPart (tr : PyStr) : List PyStr → List PyStr
  | [] => []
  | l :: rest =>
    let nl := pyStrip l
    if stopCond tr nl then [] else l :: absorbedPart (mergeCont tr nl) rest

/-- Normalization of a single cell's content (lines 547-552):
strip, collapse whitespace runs, replace stray newlines. -/
def cleanCell (p : PyStr) : PyStr :=
  replaceChar '\r' ' ' (replaceChar '\n' ' ' (collapseWS (pyStrip p)))

/-- The `for i, part in enumerate(parts)` loop of `_clean_table_row`
applied to the parts after the first: every part except the final one
(which is the part after the last `|`) is normalized and padded, the
final one is kept (the `i == len(parts)-1` case). -/
def cleanMid : List PyStr → List PyStr
  | [] => []
  | [p] => [p]
  | p :: ps => (pys " " ++ cleanCell p ++ pys " ") :: cleanMid ps

/-- `_clean_table_row` (lines 533-555): the part before the first `|`
(index 0) and the part after the last `|` are kept verbatim, every cell
in between is normalized and wrapped in single spaces. -/
def cleanTableRow (row : PyStr) : PyStr :=
  if (pyStrip row).isEmpty || !(row.contains '|') then row
  else
    match splitChar '|' row with
    | [] => row
    | p0 :: rest => joinWith (pys "|") (p0 :: cleanMid rest)

/-- The main loop of `_fix_markdown_tables` (lines 476-528), with fuel:
each iteration consumes at least one line, so `fuel = length` suffices. -/
def fixGo : Nat → List PyStr → List PyStr
  | _, [] => []
  | 0, ls => ls
  | Nat.succ f, l :: rest =>
    if isTableRow l then
      let (row, rest') := absorb l rest
      cleanTableRow row :: fixGo f rest'
    else l :: fixGo f rest

/-- The repair pass on a list of lines. -/
def fixLines (ls : List PyStr) : List PyStr := fixGo ls.length ls

/-- `_fix_markdown_tables` (lines 467-530). -/
def fixMarkdownTables (s : PyStr) : PyStr :=
  joinWith (pys "\n") (fixLines (splitChar '\n' s))

/-- The repair pass absorbs no continuation line: every table row is
immediately followed by a stop condition (or the end of input). -/
def noAbsorb : List PyStr → Bool
  | [] => true
  | l :: rest =>
    (if isTableRow l then
      (match rest with | [] => true | nl :: _ => stopCond l (pyStrip nl))
     else true) && noAbsorb rest

/-- The lines the repair pass emits byte-for-byte unchanged (spec-side). -/
def passGo : Nat → List PyStr → List PyStr
  | _, [] => []
  | 0, _ => []
  | Nat.succ f, l :: rest =>
    if isTableRow l then passGo f (absorb l rest).2 else l :: passGo f rest

/-- All non-table-row lines the pass emits unchanged. -/
def passedThrough (ls : List PyStr) : List PyStr := passGo ls.length ls

/-- The lines the repair pass absorbs into preceding rows (spec-side). -/
def absGo : Nat → List PyStr → List PyStr
  | _, [] => []
  | 0, _ => []
  | Nat.succ f, l :: rest =>
    if isTableRow l then absorbedPart l rest ++ absGo f (absorb l rest).2
    else absGo f rest

/-- All lines consumed as continuations across the whole pass. -/
def absorbedOf (ls : List PyStr) : List PyStr := absGo ls.length ls

/-- A middle cell after normalization: single-space padding around the
cleaned content. -/
def rowPad (p : PyStr) : PyStr := pys " " ++ cleanCell p ++ pys " "

/-- Normal form of whitespace inside a cleaned string, tracked left to
right: `b` records that the previous character was a space.  `good b s`
holds when every whitespace character of `s` is a single `' '` that is
not preceded by another space and `s` does not end in a space. -/
def good (b : Bool) : PyStr → Bool
  | [] => !b
  | c :: t => if pyIsSpace c then (c = ' ') && !b && good true t else good false t

/-- The action of the repair pass on a single line when no continuation
lines are absorbed: table rows are cleaned, other lines kept. -/
def phiLine (l : PyStr) : PyStr := if isTableRow l then cleanTableRow l else l

/-! ### The HTML sanitizer (`HtmlConverter._preprocess_html`)

Each `re.sub`/`re.search` pattern of lines 342-404 is embedded as a
matcher `PyStr → Option Nat` returning the length of the (case-insensitive,
newline-spanning) match starting at the given position, if any.  Pattern
literals are written lowercase; the input is lowercased for comparison,
mirroring `re.IGNORECASE`. -/

/-- Case-insensitive `startswith`. -/
def startsWithCI (pat s : PyStr) : Bool := startsWithL pat (s.map Char.toLower)

/-- Case-insensitive substring containment. -/
def containsCI (pat s : PyStr) : Bool := containsSub pat (s.map Char.toLower)

/-- First index at which `pat` occurs (case-insensitive). -/
def idxOfCI (pat : PyStr) : PyStr → Option Nat
  | [] => none
  | c :: rest =>
    if startsWithCI pat (c :: rest) then some 0 else (idxOfCI pat rest).map (· + 1)

/-- All indices at which `pat` occurs (case-insensitive), ascending. -/
def occurrencesCI (pat : PyStr) : PyStr → List Nat
  | [] => []
  | c :: rest =>
    (if startsWithCI pat (c :: rest) then [0] else []) ++ (occurrencesCI pat rest).map (· + 1)

/-- `(<div id="content[^>]*>)` (line 348), match length at this position. -/
def matchContentDiv (s : PyStr) : Option Nat :=
  if startsWithCI (pys "<div id=\"content") s then
    let rest := s.drop 16
    let run := rest.takeWhile (· ≠ '>')
    if run.length < rest.length then some (16 + run.length + 1) else none
  else none

/-- `(<div id="likes-and-labels-container)` (line 354), a bare literal. -/
def matchLikes (s : PyStr) : Option Nat :=
  if startsWithCI (pys "<div id=\"likes-and-labels-container") s then some 35 else none

/-- `<link[^>]*rel="stylesheet"[^>]*/?>` (line 360). -/
def matchLink (s : PyStr) : Option Nat :=
  if startsWithCI (pys "<link") s then
    let rest := s.drop 5
    let run := rest.takeWhile (· ≠ '>')
    if containsCI (pys "rel=\"stylesheet\"") run && run.length < rest.length then
      some (5 + run.length + 1)
    else none
  else none

/-- `<style>.*?</style>` (line 363). -/
def matchStyleBlock (s : PyStr) : Option Nat :=
  if startsWithCI (pys "<style>") s then
    (idxOfCI (pys "</style>") (s.drop 7)).map (fun i => 7 + i + 8)
  else none

/-- `style="[^"]*"` (line 366). -/
def matchStyleAttr (s : PyStr) : Option Nat :=
  if startsWithCI (pys "style=\"") s then
    let rest := s.drop 7
    let run := rest.takeWhile (· ≠ '"')
    if run.length < rest.length then some (7 + run.length + 1) else none
  else none

/-- `.*?</div>\s*<script[^>]*>.*?</script>` — the tail of the draw.io
pattern, tried at successive (lazy) `</div>` occurrences in `s2`. -/
def tryDivScript (s2 : PyStr) : List Nat → Option Nat
  | [] => none
  | d :: ds =>
    let after := s2.drop (d + 6)
    let ws := after.takeWhile pyIsSpace
    let s3 := after.drop ws.length
    if startsWithCI (pys "<script") s3 then
      let rest3 := s3.drop 7
      let run3 := rest3.takeWhile (· ≠ '>')
      if run3.length < rest3.length then
        match idxOfCI (pys "</script>") (rest3.drop (run3.length + 1)) with
        | some e => some (d + 6 + ws.length + 7 + run3.length + 1 + e + 9)
        | none => tryDivScript s2 ds
      else tryDivScript s2 ds
    else tryDivScript s2 ds

/-- The `id="drawio-macro-content[^"]*"[^>]*>` part, tried at the
occurrences of the literal inside the tag's `[^>]*` run, last first
(greedy backtracking), then the div/script tail. -/
def tryDrawioOcc (rest : PyStr) : List Nat → Option Nat
  | [] => none
  | p :: ps =>
    let after := rest.drop (p + 24)
    match after.findIdx? (· = '"') with
    | none => tryDrawioOcc rest ps
    | some q =>
      match (after.drop (q + 1)).findIdx? (· = '>') with
      | none => tryDrawioOcc rest ps
      | some r =>
        let tagEnd := p + 24 + q + 1 + r + 1
        match tryDivScript (rest.drop tagEnd) (occurrencesCI (pys "</div>") (rest.drop tagEnd)) with
        | some m => some (4 + tagEnd + m)
        | none => tryDrawioOcc rest ps

/-- `<div[^>]*id="drawio-macro-content[^"]*"[^>]*>.*?</div>\s*<script[^>]*>.*?</script>`
(lines 369-374). -/
def matchDrawio (s : PyStr) : Option Nat :=
  if startsWithCI (pys "<div") s then
    let rest := s.drop 4
    let run := rest.takeWhile (· ≠ '>')
    tryDrawioOcc rest ((occurrencesCI (pys "id=\"drawio-macro-content") run).reverse)
  else none

/-- `<svg[^>]*>.*?</svg>` (line 377). -/
def matchSvg (s : PyStr) : Option Nat :=
  if startsWithCI (pys "<svg") s then
    let rest := s.drop 4
    let run := rest.takeWhile (· ≠ '>')
    if run.length < rest.length then
      (idxOfCI (pys "</svg>") (rest.drop (run.length + 1))).map
        (fun e => 4 + run.length + 1 + e + 6)
    else none
  else none

/-- `<canvas[^>]*>.*?</canvas>` (line 380). -/
def matchCanvas (s : PyStr) : Option Nat :=
  if startsWithCI (pys "<canvas") s then
    let rest := s.drop 7
    let run := rest.takeWhile (· ≠ '>')
    if run.length < rest.length then
      (idxOfCI (pys "</canvas>") (rest.drop (run.length + 1))).map
        (fun e => 7 + run.length + 1 + e + 9)
    else none
  else none

/-- `<script[^>]*>\s*\(function\(\)\s*\{\s*function startViewer\(\).*?</script>`
(lines 383-388). -/
def matchScriptViewer (s : PyStr) : Option Nat :=
  if startsWithCI (pys "<script") s then
    let rest := s.drop 7
    let run := rest.takeWhile (· ≠ '>')
    if run.length < rest.length then
      let s2 := rest.drop (run.length + 1)
      let ws1 := s2.takeWhile pyIsSpace
      let s3 := s2.drop ws1.length
      if startsWithCI (pys "(function()") s3 then
        let s4 := s3.drop 11
        let ws2 := s4.takeWhile pyIsSpace
        let s5 := s4.drop ws2.length
        if startsWithCI (pys "\x7b") s5 then
          let s6 := s5.drop 1
          let ws3 := s6.takeWhile pyIsSpace
          let s7 := s6.drop ws3.length
          if startsWithCI (pys "function startviewer()") s7 then
            (idxOfCI (pys "</script>") (s7.drop 22)).map
              (fun e => 7 + run.length + 1 + ws1.length + 11 + ws2.length + 1
                + ws3.length + 22 + e + 9)
          else none
        else none
      else none
    else none
  else none

/-- The `src="data:[^"]*"[^>]*/?>\s*` part of the img pattern, tried at the
occurrences of `src="data:` inside the tag's `[^>]*` run, last first. -/
def tryImgOcc (rest : PyStr) : List Nat → Option Nat
  | [] => none
  | p :: ps =>
    let after := rest.drop (p + 10)
    match after.findIdx? (· = '"') with
    | none => tryImgOcc rest ps
    | some q =>
      match (after.drop (q + 1)).findIdx? (· = '>') with
      | none => tryImgOcc rest ps
      | some r =>
        let tagEnd := p + 10 + q + 1 + r + 1
        let ws := (rest.drop tagEnd).takeWhile pyIsSpace
        some (4 + tagEnd + ws.length)

/-- `<img[^>]*src="data:[^"]*"[^>]*/?>\s*` (line 391). -/
def matchImg (s : PyStr) : Option Nat :=
  if startsWithCI (pys "<img") s then
    let rest := s.drop 4
    let run := rest.takeWhile (· ≠ '>')
    tryImgOcc rest ((occurrencesCI (pys "src=\"data:") run).reverse)
  else none

/-- `<span[^>]*>draw\.io evaluation version</span>` (line 394). -/
def matchSpanDrawio (s : PyStr) : Option Nat :=
  if startsWithCI (pys "<span") s then
    let rest := s.drop 5
    let run := rest.takeWhile (· ≠ '>')
    if run.length < rest.length then
      let s2 := rest.drop (run.length + 1)
      if startsWithCI (pys "draw.io evaluation version") s2
          && startsWithCI (pys "</span>") (s2.drop 26) then
        some (5 + run.length + 1 + 26 + 7)
      else none
    else none
  else none

/-- The `class="[^"]*geDiagramContainer[^"]*"[^>]*>.*?</div>` part, tried
at the occurrences of `class="` inside the tag's `[^>]*` run, last first. -/
def tryGeOcc (rest : PyStr) : List Nat → Option Nat
  | [] => none
  | p :: ps =>
    let seg := (rest.drop (p + 7)).takeWhile (· ≠ '"')
    if containsCI (pys "gediagramcontainer") seg
        && p + 7 + seg.length < rest.length then
      match (rest.drop (p + 7 + seg.length + 1)).findIdx? (· = '>') with
      | none => tryGeOcc rest ps
      | some r =>
        let tagEnd := p + 7 + seg.length + 1 + r + 1
        match idxOfCI (pys "</div>") (rest.drop tagEnd) with
        | some e => some (4 + tagEnd + e + 6)
        | none => tryGeOcc rest ps
    else tryGeOcc rest ps

/-- `<div[^>]*class="[^"]*geDiagramContainer[^"]*"[^>]*>.*?</div>`
(lines 397-402). -/
def matchGeDiagram (s : PyStr) : Option Nat :=
  if startsWithCI (pys "<div") s then
    let rest := s.drop 4
    let run := rest.takeWhile (· ≠ '>')
    tryGeOcc rest ((occurrencesCI (pys "class=\"") run).reverse)
  else none

/-- Index of the leftmost match of `m` in `s`. -/
def findIdxM (m : PyStr → Option Nat) : PyStr → Option Nat
  | [] => none
  | c :: rest => if (m (c :: rest)).isSome then some 0 else (findIdxM m rest).map (· + 1)

/-- `re.sub(pattern, '', s)`: remove leftmost non-overlapping matches,
resuming after each match.  Fueled; every match consumes at least one
character, so `fuel = length` suffices. -/
def subAllGo (m : PyStr → Option Nat) : Nat → PyStr → PyStr
  | _, [] => []
  | 0, s => s
  | Nat.succ f, c :: rest =>
    match m (c :: rest) with
    | some (Nat.succ n) => subAllGo m f (rest.drop n)
    | _ => c :: subAllGo m f rest

/-- Global removal of all matches of `m`. -/
def subAll (m : PyStr → Option Nat) (s : PyStr) : PyStr := subAllGo m s.length s

/-- Lines 348-351: keep from the first `<div id="content...>`. -/
def stepContent (s : PyStr) : PyStr :=
  match findIdxM matchContentDiv s with
  | some p => s.drop p
  | none => s

/-- Lines 354-357: cut before the first `<div id="likes-and-labels-container`. -/
def stepLikes (s : PyStr) : PyStr :=
  match findIdxM matchLikes s with
  | some q => s.take q
  | none => s

/-- `HtmlConverter._preprocess_html` (lines 342-404): the eleven
substitutions applied in source order. -/
def preprocessHtml (s : PyStr) : PyStr :=
  subAll matchGeDiagram
    (subAll matchSpanDrawio
      (subAll matchImg
        (subAll matchScriptViewer
          (subAll matchCanvas
            (subAll matchSvg
              (subAll matchDrawio
                (subAll matchStyleAttr
                  (subAll matchStyleBlock
                    (subAll matchLink
                      (stepLikes (stepContent s)))))))))))

/-- No pattern of the sanitizer matches anywhere in `o`. -/
def noTriggers (o : PyStr) : Bool :=
  (findIdxM matchContentDiv o).isNone && (findIdxM matchLikes o).isNone
    && (findIdxM matchLink o).isNone && (findIdxM matchStyleBlock o).isNone
    && (findIdxM matchStyleAttr o).isNone && (findIdxM matchDrawio o).isNone
    && (findIdxM matchSvg o).isNone && (findIdxM matchCanvas o).isNone
    && (findIdxM matchScriptViewer o).isNone && (findIdxM matchImg o).isNone
    && (findIdxM matchSpanDrawio o).isNone && (findIdxM matchGeDiagram o).isNone

/-! ### The image rule of the Markdown renderer (`convert_img`) -/

/-- `title.replace('"', '\\"')`. -/
def escapeQuotes (l : PyStr) : PyStr :=
  l.foldr (fun c acc => if c = '"' then '\\' :: '"' :: acc else c :: acc) []

/-- `_CustomMarkdownify.convert_img` (lines 120-143).  `parentKept` stands
for `el.parent.name in self.options["keep_inline_images_in"]`. -/
def convertImg (keepDataUris convertAsInline parentKept : Bool)
    (alt src title : PyStr) : PyStr :=
  let titlePart := if title.isEmpty then [] else pys " \"" ++ escapeQuotes title ++ pys "\""
  if convertAsInline && !parentKept then alt
  else
    let src' :=
      if startsWithL (pys "data:") src && !keepDataUris then
        (splitChar ',' src).headI ++ pys "..."
      else src
    pys "![" ++ alt ++ pys "](" ++ src' ++ titlePart ++ pys ")"

end HtmlToMd

/-! ## Theorems -/

namespace HtmlToMd

/-- Helper: `processRow` pads with empty strings / truncates, uniformly
described as appending `hl` empty cells and taking the first `hl`. -/
theorem processRow_texts (san : Node → PyStr) (hl idx : Nat) (r : Node) :
    (processRow san hl idx r).1 =
      ((processCells san idx (cellsInRow r)).1 ++ List.replicate hl ([] : PyStr)).take hl := by
  unfold processRow
  rcases h : processCells san idx (cellsInRow r) with ⟨texts, blocks, idx2⟩
  by_cases hlt : texts.length < hl
  · simp only [hlt, if_true]
    rw [List.take_append_eq_append_take]
    rw [List.take_of_length_le (Nat.le_of_lt hlt), List.take_replicate]
    rw [inf_eq_left.mpr (Nat.sub_le hl texts.length)]
  · simp only [hlt, if_false]
    rw [List.take_append_of_le_length (Nat.le_of_not_lt hlt)]

/-- C1: under the `append` strategy, every emitted body row has exactly as
many cells as the header row: the cell-text list of each processed body
row is the processed cells padded with empty-string cells to the header
width `hl`, or truncated to it, and its length is exactly `hl`. -/
theorem c1_row_width (san : Node → PyStr) (hl idx : Nat) (r : Node) :
    (processRow san hl idx r).1 =
      ((processCells san idx (cellsInRow r)).1 ++ List.replicate hl ([] : PyStr)).take hl
    ∧ (processRow san hl idx r).1.length = hl := by
  refine ⟨processRow_texts san hl idx r, ?_⟩
  rw [processRow_texts san hl idx r]
  rw [List.length_take, List.length_append, List.length_replicate]
  omega

/-- C5: a table with no nested table anywhere in its subtree (and
`preserve_tables_as_html` false) is converted exactly by the default
(library) pipe-table converter. -/
theorem c5_no_nesting_default (san dflt : Node → PyStr) (handling : PyStr) (el : Node)
    (h : hasNestedTable el = false) :
    convertTable san dflt false handling el = dflt el := by
  unfold convertTable convertTableWith tryConvertTableBody
  simp [h]

/-- Witness for C5 at a concrete nested-table-free table. -/
theorem c5_no_nesting_default_witness :
    hasNestedTable (Node.elem (pys "table")
      [Node.elem (pys "tr") [Node.elem (pys "td") [Node.text (pys "1")]]]) = false
    ∧ convertTable (fun _ => []) (fun _ => pys "DEFAULT") false (pys "append")
        (Node.elem (pys "table")
          [Node.elem (pys "tr") [Node.elem (pys "td") [Node.text (pys "1")]]])
      = pys "DEFAULT" :=
  ⟨by decide,
   c5_no_nesting_default (fun _ => []) (fun _ => pys "DEFAULT") (pys "append") _ (by decide)⟩

/-- C9: exceptions raised inside `convert_table`'s flattening body are
caught locally: whenever the body raises, the result is the default
conversion of the outer table (partial nested work is discarded), and the
conversion of the rest of the document proceeds with that string. -/
theorem c9_exception_fallback (body : Node → Except PyStr (Option PyStr))
    (dflt : Node → PyStr) (el : Node) (err : PyStr)
    (h : body el = .error err) :
    convertTableWith body dflt el = dflt el := by
  unfold convertTableWith
  rw [h]

/-- Witness for C9: a body that always raises falls back to the default. -/
theorem c9_exception_fallback_witness :
    (fun (_ : Node) => (Except.error (pys "boom") : Except PyStr (Option PyStr)))
        (Node.text []) = .error (pys "boom")
    ∧ convertTableWith (fun _ => .error (pys "boom")) (fun _ => pys "FALLBACK")
        (Node.text []) = pys "FALLBACK" :=
  ⟨rfl, c9_exception_fallback _ (fun _ => pys "FALLBACK") (Node.text []) (pys "boom") rfl⟩

end HtmlToMd

namespace HtmlToMd

/-- Helper: the nested-table loop emits consecutively labelled blocks and
advances the index by the number of nested tables. -/
theorem processNested_eq (san : Node → PyStr) (idx : Nat) (ts : List Node) :
    processNested san idx ts = (labelFrom san idx ts, idx + ts.length) := by
  induction ts generalizing idx with
  | nil => simp [processNested, labelFrom]
  | cons t ts ih =>
    simp only [processNested, labelFrom, ih, List.length_cons, Prod.mk.injEq, true_and]
    omega

/-- Helper: labels of a concatenation split at the offset. -/
theorem labelFrom_append (san : Node → PyStr) (idx : Nat) (a b : List Node) :
    labelFrom san idx (a ++ b) = labelFrom san idx a ++ labelFrom san (idx + a.length) b := by
  induction a generalizing idx with
  | nil => simp [labelFrom]
  | cons x xs ih =>
    simp only [List.cons_append, labelFrom, List.length_cons, List.append_eq]
    rw [ih (idx + 1)]
    rw [show idx + (xs.length + 1) = idx + 1 + xs.length by omega]

/-- Helper: unfolding lemma for `processCells` on a cons. -/
theorem processCells_cons (san : Node → PyStr) (idx : Nat) (c : Node) (cs : List Node) :
    processCells san idx (c :: cs) =
      ((processCell san idx c).1 :: (processCells san (processCell san idx c).2.2 cs).1,
       (processCell san idx c).2.1 ++ (processCells san (processCell san idx c).2.2 cs).2.1,
       (processCells san (processCell san idx c).2.2 cs).2.2) := rfl

/-- Helper: blocks and final index of one cell. -/
theorem processCell_blocks_idx (san : Node → PyStr) (idx : Nat) (c : Node) :
    (processCell san idx c).2.1 = labelFrom san idx (findTablesN c)
    ∧ (processCell san idx c).2.2 = idx + (findTablesN c).length := by
  unfold processCell
  rcases h : findTablesN c with _ | ⟨t, ts⟩
  · simp [labelFrom]
  · simp [processNested_eq, labelFrom]

/-- Helper: blocks and final index of a list of cells. -/
theorem processCells_blocks_idx (san : Node → PyStr) (idx : Nat) (cs : List Node) :
    (processCells san idx cs).2.1 = labelFrom san idx (cs.flatMap findTablesN)
    ∧ (processCells san idx cs).2.2 = idx + (cs.flatMap findTablesN).length := by
  induction cs generalizing idx with
  | nil => simp [processCells, labelFrom]
  | cons c cs ih =>
    rw [processCells_cons]
    have hb := (processCell_blocks_idx san idx c).1
    have hi := (processCell_blocks_idx san idx c).2
    simp only [hb, hi, List.flatMap_cons]
    have ihb := (ih (idx + (findTablesN c).length)).1
    have ihi := (ih (idx + (findTablesN c).length)).2
    refine ⟨?_, ?_⟩
    · rw [ihb, labelFrom_append]
    · rw [ihi, List.length_append]
      omega

/-- Helper: a body row passes the blocks and index of its cells through. -/
theorem processRow_snd (san : Node → PyStr) (hl idx : Nat) (r : Node) :
    (processRow san hl idx r).2 = (processCells san idx (cellsInRow r)).2 := rfl

/-- Helper: unfolding lemma for `processRows` on a cons. -/
theorem processRows_cons (san : Node → PyStr) (hl idx : Nat) (r : Node) (rs : List Node) :
    processRows san hl idx (r :: rs) =
      ((processRow san hl idx r).1 :: (processRows san hl (processRow san hl idx r).2.2 rs).1,
       (processRow san hl idx r).2.1 ++ (processRows san hl (processRow san hl idx r).2.2 rs).2.1,
       (processRows san hl (processRow san hl idx r).2.2 rs).2.2) := rfl

/-- Helper: `nestedTablesOf` on a cons. -/
theorem nestedTablesOf_cons (r : Node) (rs : List Node) :
    nestedTablesOf (r :: rs) = (cellsInRow r).flatMap findTablesN ++ nestedTablesOf rs := by
  simp [nestedTablesOf]

/-- Helper: blocks and final index of the whole body-row loop. -/
theorem processRows_blocks_idx (san : Node → PyStr) (hl idx : Nat) (rows : List Node) :
    (processRows san hl idx rows).2.2 = idx + (nestedTablesOf rows).length
    ∧ (processRows san hl idx rows).2.1 = labelFrom san idx (nestedTablesOf rows) := by
  induction rows generalizing idx with
  | nil => simp [processRows, nestedTablesOf, labelFrom]
  | cons r rs ih =>
    rw [processRows_cons]
    have h2 : (processRow san hl idx r).2.2 = idx + ((cellsInRow r).flatMap findTablesN).length := by
      rw [show (processRow san hl idx r).2.2 = (processCells san idx (cellsInRow r)).2.2 from rfl]
      exact (processCells_blocks_idx san idx (cellsInRow r)).2
    have h1 : (processRow san hl idx r).2.1 = labelFrom san idx ((cellsInRow r).flatMap findTablesN) := by
      rw [show (processRow san hl idx r).2.1 = (processCells san idx (cellsInRow r)).2.1 from rfl]
      exact (processCells_blocks_idx san idx (cellsInRow r)).1
    simp only [h1, h2, nestedTablesOf_cons]
    have iha := (ih (idx + ((cellsInRow r).flatMap findTablesN).length)).1
    have ihb := (ih (idx + ((cellsInRow r).flatMap findTablesN).length)).2
    refine ⟨?_, ?_⟩
    · rw [iha, List.length_append]
      omega
    · rw [ihb, labelFrom_append]

/-- C2: within one top-level `append` conversion, nested-table reference
indices are assigned consecutively starting from the initial index (1 in
`appendFlatten`), in row-then-cell document order: the emitted blocks are
exactly `labelFrom san idx` of the nested tables in document order (so
labels are strictly increasing and never reused), the final index is the
initial index plus the total number of nested tables, and a cell
containing `k` nested tables consumes exactly the `k` consecutive indices
starting at its entry index. -/
theorem c2_indices_document_order (san : Node → PyStr) (hl idx : Nat)
    (rows : List Node) (c : Node) :
    (processRows san hl idx rows).2.2 = idx + (nestedTablesOf rows).length
    ∧ (processRows san hl idx rows).2.1 = labelFrom san idx (nestedTablesOf rows)
    ∧ (processCell san idx c).2.2 = idx + (findTablesN c).length
    ∧ (processCell san idx c).2.1 = labelFrom san idx (findTablesN c) :=
  ⟨(processRows_blocks_idx san hl idx rows).1, (processRows_blocks_idx san hl idx rows).2,
   (processCell_blocks_idx san idx c).2, (processCell_blocks_idx san idx c).1⟩

end HtmlToMd

namespace HtmlToMd

/-- Helper: erasing nested-table texts does not change what is a table. -/
theorem isTable_erase (b : Bool) (n : Node) : isTable (eraseTextsN b n) = isTable n := by
  cases n <;> rfl

mutual

/-- Helper: erasing nested-table texts preserves the number (and layout)
of descendant tables of a node. -/
theorem findTablesN_erase_len (b : Bool) (n : Node) :
    (findTablesN (eraseTextsN b n)).length = (findTablesN n).length := by
  cases n with
  | text s => rfl
  | elem t cs =>
    simp only [eraseTextsN, findTablesN]
    exact findTablesL_erase_len (b || (t == pys "table")) cs

/-- Helper: list version of `findTablesN_erase_len`. -/
theorem findTablesL_erase_len (b : Bool) (cs : List Node) :
    (findTablesL (eraseTextsL b cs)).length = (findTablesL cs).length := by
  cases cs with
  | nil => rfl
  | cons n ns =>
    simp only [eraseTextsL, findTablesL, List.length_append, isTable_erase]
    rw [findTablesN_erase_len b n, findTablesL_erase_len b ns]
    by_cases hn : isTable n <;> simp [hn]

end

mutual

/-- Helper: on a non-table node, deleting descendant tables gives the same
result whether or not the text inside those tables was erased first. -/
theorem deleteTablesN_erase (n : Node) (h : isTable n = false) :
    deleteTablesN (eraseTextsN false n) = deleteTablesN n := by
  cases n with
  | text s => rfl
  | elem t cs =>
    have ht : (t == pys "table") = false := by
      simpa [isTable, nodeTag] using h
    simp only [eraseTextsN, ht, Bool.false_or, deleteTablesN]
    rw [deleteTablesL_erase cs]

/-- Helper: list version of `deleteTablesN_erase` (table children are
deleted on both sides, so only non-table children matter). -/
theorem deleteTablesL_erase (cs : List Node) :
    deleteTablesL (eraseTextsL false cs) = deleteTablesL cs := by
  cases cs with
  | nil => rfl
  | cons n ns =>
    simp only [eraseTextsL, deleteTablesL, isTable_erase]
    by_cases hn : isTable n
    · simp only [hn, if_true]
      rw [deleteTablesL_erase ns]
    · simp only [hn, if_false]
      rw [deleteTablesN_erase n (by simpa using hn), deleteTablesL_erase ns]

end

/-- C3: the text emitted for a cell never contains text of a nested table:
erasing every piece of text lying inside the cell's nested tables leaves
the emitted cell text unchanged (it consists only of the cell's own
table-free text plus the reference marker). -/
theorem c3_cell_text_no_leak (san : Node → PyStr) (idx : Nat) (c : Node)
    (h : isTable c = false) :
    (processCell san idx c).1 = (processCell san idx (eraseNestedTableTexts c)).1 := by
  unfold processCell eraseNestedTableTexts
  have hbase : textWithoutNested (eraseTextsN false c) = textWithoutNested c := by
    unfold textWithoutNested
    rw [deleteTablesN_erase c h]
  have hlen : (findTablesN (eraseTextsN false c)).length = (findTablesN c).length :=
    findTablesN_erase_len false c
  have hempty : (findTablesN (eraseTextsN false c)).isEmpty = (findTablesN c).isEmpty := by
    rcases h1 : findTablesN (eraseTextsN false c) with _ | _ <;>
      rcases h2 : findTablesN c with _ | _ <;> simp_all
  simp only [hbase, hempty, processNested_eq, hlen]
  by_cases he : (findTablesN c).isEmpty <;> simp [he]

/-- Witness for C3: a concrete cell whose nested table carries text. -/
theorem c3_cell_text_no_leak_witness :
    isTable (Node.elem (pys "td")
      [Node.text (pys "own"),
       Node.elem (pys "table")
         [Node.elem (pys "tr") [Node.elem (pys "td") [Node.text (pys "secret")]]]]) = false
    ∧ (processCell (fun _ => []) 1 (Node.elem (pys "td")
        [Node.text (pys "own"),
         Node.elem (pys "table")
           [Node.elem (pys "tr") [Node.elem (pys "td") [Node.text (pys "secret")]]]])).1
      = (processCell (fun _ => []) 1 (eraseNestedTableTexts (Node.elem (pys "td")
          [Node.text (pys "own"),
           Node.elem (pys "table")
             [Node.elem (pys "tr") [Node.elem (pys "td") [Node.text (pys "secret")]]]]))).1 :=
  ⟨by decide, c3_cell_text_no_leak (fun _ => []) 1 _ (by decide)⟩

/-- C4 counterexample: the reference marker is the Markdown link
`[See Table 1](#table-1)` (resp. `[See Tables 1-2](#table-1)`), not the
literal text `(See Table 1)` (resp. `(See Tables 1-2)`) stated by the
claim. -/
theorem c4_counterexample :
    (processCell (fun _ => []) 1 (Node.elem (pys "td")
        [Node.elem (pys "table")
          [Node.elem (pys "tr") [Node.elem (pys "td") [Node.text (pys "x")]]]])).1
      = pys "[See Table 1](#table-1)"
    ∧ (processCell (fun _ => []) 1 (Node.elem (pys "td")
        [Node.elem (pys "table")
          [Node.elem (pys "tr") [Node.elem (pys "td") [Node.text (pys "x")]]]])).1
      ≠ pys "(See Table 1)"
    ∧ (processCell (fun _ => []) 1 (Node.elem (pys "td")
        [Node.elem (pys "table")
          [Node.elem (pys "tr") [Node.elem (pys "td") [Node.text (pys "x")]]],
         Node.elem (pys "table")
          [Node.elem (pys "tr") [Node.elem (pys "td") [Node.text (pys "y")]]]])).1
      = pys "[See Tables 1-2](#table-1)"
    ∧ (processCell (fun _ => []) 1 (Node.elem (pys "td")
        [Node.elem (pys "table")
          [Node.elem (pys "tr") [Node.elem (pys "td") [Node.text (pys "x")]]],
         Node.elem (pys "table")
          [Node.elem (pys "tr") [Node.elem (pys "td") [Node.text (pys "y")]]]])).1
      ≠ pys "(See Tables 1-2)" := by
  refine ⟨by decide, by decide, by decide, by decide⟩

/-- C4 (amended): the reference marker is `[See Table N](#table-N)` for a
single nested table and `[See Tables N-M](#table-N)` for several; it is
wrapped in parentheses and appended after a space when the cell has its
own text, and used alone otherwise. -/
theorem c4_marker_form (san : Node → PyStr) (idx : Nat) (c : Node) :
    (processCell san idx c).1 =
      (if (findTablesN c).isEmpty then escapePipes (textWithoutNested c)
       else
         let k := (findTablesN c).length
         let ref := if k = 1 then seeTable idx else seeTables idx (idx + k - 1)
         if (escapePipes (textWithoutNested c)).isEmpty then ref
         else escapePipes (textWithoutNested c) ++ pys " (" ++ ref ++ pys ")") := by
  unfold processCell
  rcases h : findTablesN c with _ | ⟨t, ts⟩
  · simp
  · by_cases h0 : ts.length = 0
    · have harg : idx + (ts.length + 1) - 1 = idx := by omega
      simp [processNested_eq, h0, harg]
    · have hk1 : ¬ (ts.length + 1 = 1) := by omega
      have harg : idx + (ts.length + 1) - 1 = idx + ts.length := by omega
      have hne : ¬ (idx = idx + ts.length) := by omega
      simp [processNested_eq, hk1, harg, hne]

end HtmlToMd

namespace HtmlToMd

/-- Helper: when a matcher matches nowhere, global substitution is the
identity (for any fuel). -/
theorem subAllGo_no_match (m : PyStr → Option Nat) (s : PyStr)
    (h : findIdxM m s = none) : ∀ f, subAllGo m f s = s := by
  induction s with
  | nil => intro f; cases f <;> rfl
  | cons c rest ih =>
    have h1 : m (c :: rest) = none := by
      by_cases hm : (m (c :: rest)).isSome
      · simp [findIdxM, hm] at h
      · simpa using hm
    have h2 : findIdxM m rest = none := by
      simp only [findIdxM, h1, Option.isSome_none, Bool.false_eq_true, if_false] at h
      simpa using h
    intro f
    cases f with
    | zero => rfl
    | succ f => simp [subAllGo, h1, ih h2 f]

/-- Helper: `subAll` is the identity when its pattern matches nowhere. -/
theorem subAll_no_match (m : PyStr → Option Nat) (s : PyStr)
    (h : findIdxM m s = none) : subAll m s = s :=
  subAllGo_no_match m s h s.length

/-- Helper: the content-truncation step is the identity when its pattern
does not occur. -/
theorem stepContent_no_match (s : PyStr) (h : findIdxM matchContentDiv s = none) :
    stepContent s = s := by
  unfold stepContent
  rw [h]

/-- Helper: the likes-truncation step is the identity when its pattern
does not occur. -/
theorem stepLikes_no_match (s : PyStr) (h : findIdxM matchLikes s = none) :
    stepLikes s = s := by
  unfold stepLikes
  rw [h]

/-- C7 counterexample: the sanitizer is not idempotent.  Removing a
`style="..."` attribute can splice a new `style="..."` occurrence
together, which only the second application removes. -/
theorem c7_counterexample :
    preprocessHtml (pys "stystyle=\"a\"le=\"b\"") = pys "style=\"b\""
    ∧ preprocessHtml (preprocessHtml (pys "stystyle=\"a\"le=\"b\"")) = pys ""
    ∧ preprocessHtml (preprocessHtml (pys "stystyle=\"a\"le=\"b\""))
      ≠ preprocessHtml (pys "stystyle=\"a\"le=\"b\"") :=
  ⟨by decide, by decide, by decide⟩

/-- C7 (amended): sanitizing twice is a no-op the second time for every
input whose sanitized output contains no further occurrence of any of the
sanitizer's patterns; in general removal can splice new matches together,
so the sanitizer is not idempotent (see the counterexample). -/
theorem c7_idempotent_when_quiescent (s : PyStr)
    (h : noTriggers (preprocessHtml s) = true) :
    preprocessHtml (preprocessHtml s) = preprocessHtml s := by
  unfold noTriggers at h
  simp only [Bool.and_eq_true, Option.isNone_iff_eq_none] at h
  obtain ⟨⟨⟨⟨⟨⟨⟨⟨⟨⟨⟨h1, h2⟩, h3⟩, h4⟩, h5⟩, h6⟩, h7⟩, h8⟩, h9⟩, h10⟩, h11⟩, h12⟩ := h
  conv_lhs => rw [preprocessHtml]
  rw [stepContent_no_match _ h1, stepLikes_no_match _ h2, subAll_no_match _ _ h3,
    subAll_no_match _ _ h4, subAll_no_match _ _ h5, subAll_no_match _ _ h6,
    subAll_no_match _ _ h7, subAll_no_match _ _ h8, subAll_no_match _ _ h9,
    subAll_no_match _ _ h10, subAll_no_match _ _ h11, subAll_no_match _ _ h12]

/-- Witness for C7 (amended) at a concrete pattern-free input. -/
theorem c7_idempotent_when_quiescent_witness :
    noTriggers (preprocessHtml (pys "hello <b>world</b>")) = true
    ∧ preprocessHtml (preprocessHtml (pys "hello <b>world</b>"))
      = preprocessHtml (pys "hello <b>world</b>") :=
  ⟨by decide, c7_idempotent_when_quiescent _ (by decide)⟩

end HtmlToMd

namespace HtmlToMd

/-- C8 counterexample: the conversion pipeline does not emit a truncated
image for a double-quoted `data:` URI: the preprocessor removes the whole
`<img>` element before the renderer runs, so no `data:` text (truncated
or not) survives to the renderer's input. -/
theorem c8_counterexample :
    preprocessHtml (pys "<img src=\"data:image/png;base64,abc\">hello") = pys "hello"
    ∧ containsSub (pys "data:")
        (preprocessHtml (pys "<img src=\"data:image/png;base64,abc\">hello")) = false
    ∧ containsSub (pys "<img")
        (preprocessHtml (pys "<img src=\"data:image/png;base64,abc\">hello")) = false :=
  ⟨by decide, by decide, by decide⟩

/-- C8 (amended): the renderer's image rule truncates a `data:` URI source
to the part before the first comma plus an ellipsis when `keep_data_uris`
is false; however, an `<img>` whose double-quoted `src` is a `data:` URI
is removed entirely by the pipeline's preprocessor and never reaches the
renderer (see the counterexample). -/
theorem c8_img_truncation (alt src title : PyStr)
    (h : startsWithL (pys "data:") src = true) :
    convertImg false false true alt src title =
      pys "![" ++ alt ++ pys "](" ++ ((splitChar ',' src).headI ++ pys "...")
        ++ (if title.isEmpty then [] else pys " \"" ++ escapeQuotes title ++ pys "\"")
        ++ pys ")" := by
  simp [convertImg, h]

/-- Witness for C8 (amended) at a concrete base64 image source. -/
theorem c8_img_truncation_witness :
    startsWithL (pys "data:") (pys "data:image/png;base64,iVBORw0KGgo") = true
    ∧ convertImg false false true (pys "logo") (pys "data:image/png;base64,iVBORw0KGgo") []
      = pys "![" ++ pys "logo" ++ pys "]("
        ++ ((splitChar ',' (pys "data:image/png;base64,iVBORw0KGgo")).headI ++ pys "...")
        ++ (if ([] : PyStr).isEmpty then [] else pys " \"" ++ escapeQuotes [] ++ pys "\"")
        ++ pys ")" :=
  ⟨by decide, c8_img_truncation (pys "logo") (pys "data:image/png;base64,iVBORw0KGgo") [] (by decide)⟩

end HtmlToMd

namespace HtmlToMd

/-- Helper: the look-ahead loop only consumes a prefix of the following
lines; what it leaves is a suffix. -/
theorem absorb_suffix (rest : List PyStr) : ∀ tr, (absorb tr rest).2 <:+ rest := by
  induction rest with
  | nil => intro tr; simp [absorb]
  | cons l rest ih =>
    intro tr
    by_cases h : stopCond tr (pyStrip l)
    · simp [absorb, h]
    · simp only [absorb, h, if_false, Bool.false_eq_true]
      exact (ih (mergeCont tr (pyStrip l))).trans (List.suffix_cons l rest)

/-- Helper: the unconsumed rest is no longer than the input. -/
theorem absorb_len (tr : PyStr) (rest : List PyStr) :
    (absorb tr rest).2.length ≤ rest.length :=
  (absorb_suffix rest tr).length_le

/-- Helper: the following lines split into the absorbed part and the rest. -/
theorem absorbedPart_append (rest : List PyStr) : ∀ tr,
    absorbedPart tr rest ++ (absorb tr rest).2 = rest := by
  induction rest with
  | nil => intro tr; simp [absorbedPart, absorb]
  | cons l rest ih =>
    intro tr
    by_cases h : stopCond tr (pyStrip l)
    · simp [absorbedPart, absorb, h]
    · simp only [absorbedPart, absorb, h, if_false, Bool.false_eq_true, List.cons_append,
        List.cons.injEq, true_and]
      exact ih (mergeCont tr (pyStrip l))

/-- Helper: `passGo` does not depend on the fuel once it covers the length. -/
theorem passGo_fuel : ∀ f g (ls : List PyStr), ls.length ≤ f → ls.length ≤ g →
    passGo f ls = passGo g ls := by
  intro f
  induction f with
  | zero =>
    intro g ls hf _
    have : ls = [] := List.eq_nil_of_length_eq_zero (Nat.le_zero.mp hf)
    subst this
    cases g <;> rfl
  | succ f ih =>
    intro g ls hf hg
    cases ls with
    | nil => cases g <;> rfl
    | cons l rest =>
      simp only [List.length_cons] at hf hg
      cases g with
      | zero => omega
      | succ g =>
        by_cases hr : isTableRow l
        · simp only [passGo, hr, if_true]
          exact ih g _ (le_trans (absorb_len l rest) (by omega))
            (le_trans (absorb_len l rest) (by omega))
        · simp only [passGo, hr, if_false, Bool.false_eq_true]
          rw [ih g rest (by omega) (by omega)]

/-- Helper: `fixGo` does not depend on the fuel once it covers the length. -/
theorem fixGo_fuel : ∀ f g (ls : List PyStr), ls.length ≤ f → ls.length ≤ g →
    fixGo f ls = fixGo g ls := by
  intro f
  induction f with
  | zero =>
    intro g ls hf _
    have : ls = [] := List.eq_nil_of_length_eq_zero (Nat.le_zero.mp hf)
    subst this
    cases g <;> rfl
  | succ f ih =>
    intro g ls hf hg
    cases ls with
    | nil => cases g <;> rfl
    | cons l rest =>
      simp only [List.length_cons] at hf hg
      cases g with
      | zero => omega
      | succ g =>
        by_cases hr : isTableRow l
        · simp only [fixGo, hr, if_true]
          rw [ih g _ (le_trans (absorb_len l rest) (by omega))
            (le_trans (absorb_len l rest) (by omega))]
        · simp only [fixGo, hr, if_false, Bool.false_eq_true]
          rw [ih g rest (by omega) (by omega)]

/-- Helper: `absGo` does not depend on the fuel once it covers the length. -/
theorem absGo_fuel : ∀ f g (ls : List PyStr), ls.length ≤ f → ls.length ≤ g →
    absGo f ls = absGo g ls := by
  intro f
  induction f with
  | zero =>
    intro g ls hf _
    have : ls = [] := List.eq_nil_of_length_eq_zero (Nat.le_zero.mp hf)
    subst this
    cases g <;> rfl
  | succ f ih =>
    intro g ls hf hg
    cases ls with
    | nil => cases g <;> rfl
    | cons l rest =>
      simp only [List.length_cons] at hf hg
      cases g with
      | zero => omega
      | succ g =>
        by_cases hr : isTableRow l
        · simp only [absGo, hr, if_true]
          rw [ih g _ (le_trans (absorb_len l rest) (by omega))
            (le_trans (absorb_len l rest) (by omega))]
        · simp only [absGo, hr, if_false, Bool.false_eq_true]
          rw [ih g rest (by omega) (by omega)]

/-- Helper: unfolding `passedThrough` on a table row. -/
theorem passedThrough_cons_row (l : PyStr) (rest : List PyStr) (h : isTableRow l = true) :
    passedThrough (l :: rest) = passedThrough (absorb l rest).2 := by
  unfold passedThrough
  simp only [List.length_cons, passGo, h, if_true]
  exact passGo_fuel rest.length _ _ (absorb_len l rest) le_rfl

/-- Helper: unfolding `passedThrough` on a non-table-row line. -/
theorem passedThrough_cons_nonrow (l : PyStr) (rest : List PyStr)
    (h : isTableRow l = false) :
    passedThrough (l :: rest) = l :: passedThrough rest := by
  unfold passedThrough
  simp only [List.length_cons, passGo, h, if_false, Bool.false_eq_true]

/-- Helper: unfolding `fixLines` on a table row. -/
theorem fixLines_cons_row (l : PyStr) (rest : List PyStr) (h : isTableRow l = true) :
    fixLines (l :: rest) = cleanTableRow (absorb l rest).1 :: fixLines (absorb l rest).2 := by
  unfold fixLines
  simp only [List.length_cons, fixGo, h, if_true]
  rw [fixGo_fuel rest.length _ _ (absorb_len l rest) le_rfl]

/-- Helper: unfolding `fixLines` on a non-table-row line. -/
theorem fixLines_cons_nonrow (l : PyStr) (rest : List PyStr) (h : isTableRow l = false) :
    fixLines (l :: rest) = l :: fixLines rest := by
  unfold fixLines
  simp only [List.length_cons, fixGo, h, if_false, Bool.false_eq_true]

/-- Helper: unfolding `absorbedOf` on a table row. -/
theorem absorbedOf_cons_row (l : PyStr) (rest : List PyStr) (h : isTableRow l = true) :
    absorbedOf (l :: rest) = absorbedPart l rest ++ absorbedOf (absorb l rest).2 := by
  unfold absorbedOf
  simp only [List.length_cons, absGo, h, if_true]
  rw [absGo_fuel rest.length _ _ (absorb_len l rest) le_rfl]

/-- Helper: unfolding `absorbedOf` on a non-table-row line. -/
theorem absorbedOf_cons_nonrow (l : PyStr) (rest : List PyStr) (h : isTableRow l = false) :
    absorbedOf (l :: rest) = absorbedOf rest := by
  unfold absorbedOf
  simp only [List.length_cons, absGo, h, if_false, Bool.false_eq_true]

/-- Helper: the lines emitted unchanged form a subsequence of the input. -/
theorem passedThrough_sublist_aux : ∀ n (ls : List PyStr), ls.length ≤ n →
    List.Sublist (passedThrough ls) ls := by
  intro n
  induction n with
  | zero =>
    intro ls h
    have : ls = [] := List.eq_nil_of_length_eq_zero (Nat.le_zero.mp h)
    subst this
    exact List.Sublist.refl []
  | succ n ih =>
    intro ls h
    cases ls with
    | nil => exact List.Sublist.refl []
    | cons l rest =>
      simp only [List.length_cons] at h
      by_cases hr : isTableRow l
      · rw [passedThrough_cons_row l rest hr]
        have h1 : List.Sublist (passedThrough (absorb l rest).2) ((absorb l rest).2) :=
          ih _ (le_trans (absorb_len l rest) (by omega))
        exact (h1.trans (absorb_suffix rest l).sublist).trans (List.sublist_cons_self l rest)
      · rw [passedThrough_cons_nonrow l rest (by simpa using hr)]
        exact (ih rest (by omega)).cons₂ l

/-- Helper: the lines emitted unchanged form a subsequence of the output. -/
theorem passedThrough_sublist_fix_aux : ∀ n (ls : List PyStr), ls.length ≤ n →
    List.Sublist (passedThrough ls) (fixLines ls) := by
  intro n
  induction n with
  | zero =>
    intro ls h
    have : ls = [] := List.eq_nil_of_length_eq_zero (Nat.le_zero.mp h)
    subst this
    exact List.Sublist.refl []
  | succ n ih =>
    intro ls h
    cases ls with
    | nil => exact List.Sublist.refl []
    | cons l rest =>
      simp only [List.length_cons] at h
      by_cases hr : isTableRow l
      · rw [passedThrough_cons_row l rest hr, fixLines_cons_row l rest hr]
        exact (ih _ (le_trans (absorb_len l rest) (by omega))).cons _
      · rw [passedThrough_cons_nonrow l rest (by simpa using hr),
          fixLines_cons_nonrow l rest (by simpa using hr)]
        exact (ih rest (by omega)).cons₂ l

/-- Helper: every non-table-row line is either passed through unchanged or
absorbed as a continuation. -/
theorem nonrow_passed_or_absorbed_aux : ∀ n (ls : List PyStr), ls.length ≤ n →
    ∀ l ∈ ls, isTableRow l = false → l ∈ passedThrough ls ∨ l ∈ absorbedOf ls := by
  intro n
  induction n with
  | zero =>
    intro ls h
    have : ls = [] := List.eq_nil_of_length_eq_zero (Nat.le_zero.mp h)
    subst this
    intro l hl
    exact absurd hl (List.not_mem_nil l)
  | succ n ih =>
    intro ls h l hl hnr
    cases ls with
    | nil => exact absurd hl (List.not_mem_nil l)
    | cons x rest =>
      simp only [List.length_cons] at h
      by_cases hr : isTableRow x
      · have hlr : l ∈ rest := by
          rcases List.mem_cons.mp hl with h1 | h1
          · subst h1; rw [hr] at hnr; cases hnr
          · exact h1
        rw [passedThrough_cons_row x rest hr, absorbedOf_cons_row x rest hr]
        have hsplit := absorbedPart_append rest x
        have : l ∈ absorbedPart x rest ++ (absorb x rest).2 := by rw [hsplit]; exact hlr
        rcases List.mem_append.mp this with h2 | h2
        · exact Or.inr (List.mem_append.mpr (Or.inl h2))
        · rcases ih _ (le_trans (absorb_len x rest) (by omega)) l h2 hnr with h3 | h3
          · exact Or.inl h3
          · exact Or.inr (List.mem_append.mpr (Or.inr h3))
      · rw [passedThrough_cons_nonrow x rest (by simpa using hr),
          absorbedOf_cons_nonrow x rest (by simpa using hr)]
        rcases List.mem_cons.mp hl with h1 | h1
        · exact Or.inl (h1 ▸ List.mem_cons_self l (passedThrough rest))
        · rcases ih rest (by omega) l h1 hnr with h2 | h2
          · exact Or.inl (List.mem_cons_of_mem x h2)
          · exact Or.inr h2

/-- C10 counterexample: a line that is not a pipe-table row (here `x|y`)
is not left unchanged: it is absorbed into the preceding row and removed. -/
theorem c10_counterexample :
    isTableRow (pys "x|y") = false
    ∧ fixMarkdownTables (pys "| a |\nx|y") = pys "| a x | y |"
    ∧ (splitChar '\n' (fixMarkdownTables (pys "| a |\nx|y"))).contains (pys "x|y") = false
    ∧ (splitChar '\n' (pys "| a |\nx|y")).contains (pys "x|y") = true :=
  ⟨by decide, by decide, by decide, by decide⟩

/-- C10 (amended): the repair pass leaves every line that is neither a
pipe-table row nor absorbed as a continuation of a preceding table row
byte-for-byte unchanged and in its original relative order: the passed-
through lines form a subsequence of both the input and the output, and
every non-table-row input line is either passed through or absorbed. -/
theorem c10_frame (ls : List PyStr) :
    List.Sublist (passedThrough ls) ls
    ∧ List.Sublist (passedThrough ls) (fixLines ls)
    ∧ ∀ l ∈ ls, isTableRow l = false → l ∈ passedThrough ls ∨ l ∈ absorbedOf ls :=
  ⟨passedThrough_sublist_aux ls.length ls le_rfl,
   passedThrough_sublist_fix_aux ls.length ls le_rfl,
   nonrow_passed_or_absorbed_aux ls.length ls le_rfl⟩

/-- Witness for C10 (amended) at a concrete line list. -/
theorem c10_frame_witness :
    List.Sublist (passedThrough [pys "title", pys "| a |", pys "x|y", pys "done"])
        [pys "title", pys "| a |", pys "x|y", pys "done"]
    ∧ (pys "title") ∈ passedThrough [pys "title", pys "| a |", pys "x|y", pys "done"]
      ∨ (pys "title") ∈ absorbedOf [pys "title", pys "| a |", pys "x|y", pys "done"] :=
  Or.inl ⟨(c10_frame [pys "title", pys "| a |", pys "x|y", pys "done"]).1,
    ((c10_frame [pys "title", pys "| a |", pys "x|y", pys "done"]).2.2 (pys "title")
      (by decide) (by decide)).resolve_right (by decide)⟩

end HtmlToMd

namespace HtmlToMd

/-- Helper: `lstrip` drops a leading space. -/
theorem pyLstrip_cons_space (x : Char) (t : PyStr) (h : pyIsSpace x = true) :
    pyLstrip (x :: t) = pyLstrip t := by
  simp [pyLstrip, List.dropWhile_cons, h]

/-- Helper: `lstrip` keeps a non-space head. -/
theorem pyLstrip_cons_nonspace (x : Char) (t : PyStr) (h : pyIsSpace x = false) :
    pyLstrip (x :: t) = x :: t := by
  simp [pyLstrip, List.dropWhile_cons, h]

/-- Helper: unfolding `rstrip` on a cons. -/
theorem pyRstrip_cons (x : Char) (t : PyStr) :
    pyRstrip (x :: t) =
      if pyRstrip t = [] then (if pyIsSpace x then [] else [x]) else x :: pyRstrip t := by
  unfold pyRstrip pyRstripBy
  rw [show (x :: t).reverse = t.reverse ++ [x] from by simp]
  rw [List.dropWhile_append]
  by_cases h : (t.reverse.dropWhile pyIsSpace).isEmpty
  · have h' : t.reverse.dropWhile pyIsSpace = [] := by simpa using h
    simp only [h, if_true, h', List.reverse_nil, List.dropWhile_cons, List.dropWhile_nil]
    by_cases hx : pyIsSpace x <;> simp [hx]
  · have h' : ¬ (t.reverse.dropWhile pyIsSpace).reverse = [] := by
      simpa using h
    simp only [h, if_false]
    rw [if_neg h']
    simp

/-- Helper: `rstrip` keeps a non-space head. -/
theorem pyRstrip_cons_nonspace (x : Char) (t : PyStr) (h : pyIsSpace x = false) :
    pyRstrip (x :: t) = x :: pyRstrip t := by
  rw [pyRstrip_cons]
  by_cases ht : pyRstrip t = [] <;> simp [ht, h]

/-- Helper: `lstrip` and `rstrip` commute. -/
theorem lstrip_rstrip_comm (l : PyStr) : pyLstrip (pyRstrip l) = pyRstrip (pyLstrip l) := by
  induction l with
  | nil => rfl
  | cons x t ih =>
    by_cases hx : pyIsSpace x
    · rw [pyLstrip_cons_space x t hx, pyRstrip_cons]
      by_cases ht : pyRstrip t = []
      · have hlt : pyRstrip (pyLstrip t) = [] := by
          rw [← ih, ht]; rfl
        rw [ht, if_pos rfl, if_pos hx, hlt]
        rfl
      · rw [if_neg ht, pyLstrip_cons_space x _ hx, ih]
    · have hx' : pyIsSpace x = false := by simpa using hx
      rw [pyRstrip_cons_nonspace x t hx', pyLstrip_cons_nonspace x _ hx',
        pyLstrip_cons_nonspace x t hx', pyRstrip_cons_nonspace x t hx']

/-- Helper: reversing exchanges `lstrip` and `rstrip`. -/
theorem reverse_pyRstrip (l : PyStr) : (pyRstrip l).reverse = pyLstrip l.reverse := by
  simp [pyRstrip, pyRstripBy, pyLstrip]

/-- Helper: reversing exchanges `rstrip` and `lstrip`. -/
theorem reverse_pyLstrip (l : PyStr) : (pyLstrip l).reverse = pyRstrip l.reverse := by
  rw [show pyRstrip l.reverse = ((pyRstrip l.reverse).reverse).reverse from by simp]
  rw [reverse_pyRstrip]
  simp

/-- Helper: stripping commutes with reversal. -/
theorem reverse_pyStrip (l : PyStr) : (pyStrip l).reverse = pyStrip l.reverse := by
  unfold pyStrip
  rw [reverse_pyRstrip, reverse_pyLstrip, lstrip_rstrip_comm]

/-- Helper: `startsWithL` decides list-prefix. -/
theorem startsWithL_iff (pat s : PyStr) : startsWithL pat s = true ↔ pat <+: s := by
  simp [startsWithL, List.isPrefixOf_iff_prefix]

/-- Helper: `endsWithL` decides list-suffix. -/
theorem endsWithL_iff (pat s : PyStr) : endsWithL pat s = true ↔ pat <:+ s := by
  simp [endsWithL, List.isSuffixOf_iff_suffix]

/-- Helper: a one-character suffix is a one-character prefix of the
reversal. -/
theorem endsWithL_eq_startsWith_reverse (c : Char) (s : PyStr) :
    endsWithL [c] s = startsWithL [c] s.reverse := by
  rcases h1 : endsWithL [c] s with _ | _ <;> rcases h2 : startsWithL [c] s.reverse with _ | _
  · rfl
  · exfalso
    have := (startsWithL_iff [c] s.reverse).mp h2
    have : [c] <:+ s := by
      have h3 := this.reverse
      simpa using h3
    rw [(endsWithL_iff [c] s).mpr this] at h1
    cases h1
  · exfalso
    have := (endsWithL_iff [c] s).mp h1
    have h3 : [c] <+: s.reverse := by
      have h4 := this.reverse
      simpa using h4
    rw [(startsWithL_iff [c] s.reverse).mpr h3] at h2
    cases h2
  · rfl

/-- Helper: a string whose stripped form starts with `c` is some
whitespace, then `c`, then the rest. -/
theorem strip_starts_decomp (l : PyStr) (c : Char)
    (h : startsWithL [c] (pyStrip l) = true) :
    ∃ w rest, l = w ++ c :: rest ∧ ∀ x ∈ w, pyIsSpace x = true := by
  induction l with
  | nil => cases h
  | cons x t ih =>
    by_cases hx : pyIsSpace x
    · have hst : pyStrip (x :: t) = pyStrip t := by
        unfold pyStrip
        rw [pyLstrip_cons_space x t hx]
      rw [hst] at h
      obtain ⟨w, rest, hw, hall⟩ := ih h
      exact ⟨x :: w, rest, by rw [hw]; rfl, by
        intro y hy
        rcases List.mem_cons.mp hy with h1 | h1
        · rw [h1]; exact hx
        · exact hall y h1⟩
    · have hst : pyStrip (x :: t) = x :: pyRstrip t := by
        unfold pyStrip
        rw [pyLstrip_cons_nonspace x t (by simpa using hx), pyRstrip_cons_nonspace x t (by simpa using hx)]
      rw [hst] at h
      have hx' : x = c := by
        have := (startsWithL_iff [c] _).mp h
        rcases this with ⟨u, hu⟩
        simpa using congrArg (fun z => z.head?) hu.symm
      exact ⟨[], t, by rw [hx']; rfl, by intro y hy; cases hy⟩

/-- Helper: a string whose stripped form ends with `c` is some prefix,
then `c`, then whitespace. -/
theorem strip_ends_decomp (l : PyStr) (c : Char)
    (h : endsWithL [c] (pyStrip l) = true) :
    ∃ rest w, l = rest ++ c :: w ∧ ∀ x ∈ w, pyIsSpace x = true := by
  have h2 : startsWithL [c] (pyStrip l.reverse) = true := by
    rw [← reverse_pyStrip]
    rw [← endsWithL_eq_startsWith_reverse]
    exact h
  obtain ⟨w, rest, hw, hall⟩ := strip_starts_decomp l.reverse c h2
  refine ⟨rest.reverse, w.reverse, ?_, ?_⟩
  · have := congrArg List.reverse hw
    simpa using this
  · intro x hx
    exact hall x (List.mem_reverse.mp hx)

end HtmlToMd

namespace HtmlToMd

/-- Helper: splitting always yields at least one part. -/
theorem splitChar_ne_nil (c : Char) (l : PyStr) : splitChar c l ≠ [] := by
  cases l with
  | nil => simp [splitChar]
  | cons x rest =>
    by_cases h : x = c
    · simp [splitChar, h]
    · simp only [splitChar, h, if_false]
      rcases hs : splitChar c rest with _ | _ <;> simp

/-- Helper: joining the parts with the separator restores the string. -/
theorem join_split (c : Char) (l : PyStr) : joinWith [c] (splitChar c l) = l := by
  induction l with
  | nil => rfl
  | cons x rest ih =>
    by_cases h : x = c
    · subst h
      simp only [splitChar, if_pos rfl]
      rcases hs : splitChar x rest with _ | ⟨p, ps⟩
      · exact absurd hs (splitChar_ne_nil x rest)
      · rw [hs] at ih
        simp only [joinWith]
        rw [ih]
        simp
    · simp only [splitChar, h, if_false]
      rcases hs : splitChar c rest with _ | ⟨p, ps⟩
      · exact absurd hs (splitChar_ne_nil c rest)
      · rw [hs] at ih
        rcases ps with _ | ⟨q, qs⟩
        · simpa [joinWith] using congrArg (fun z => x :: z) ih
        · simp only [joinWith] at ih ⊢
          rw [show (x :: p) ++ [c] ++ joinWith [c] (q :: qs)
              = x :: (p ++ [c] ++ joinWith [c] (q :: qs)) from by simp, ih]

/-- Helper: unfolding a split at a separator character. -/
theorem splitChar_cons_eq_sep (c : Char) (rest : PyStr) :
    splitChar c (c :: rest) = [] :: splitChar c rest := by
  simp [splitChar]

/-- Helper: unfolding a split at a non-separator character. -/
theorem splitChar_cons_ne (c x : Char) (rest : PyStr) (h : ¬ x = c) :
    splitChar c (x :: rest) =
      (match splitChar c rest with
       | p :: ps => (x :: p) :: ps
       | [] => [[x]]) := by
  simp [splitChar, h]

/-- Helper: no part of a split contains the separator. -/
theorem mem_splitChar_not_sep (c : Char) (l : PyStr) :
    ∀ p ∈ splitChar c l, c ∉ p := by
  induction l with
  | nil =>
    intro p hp
    simp only [splitChar, List.mem_singleton] at hp
    subst hp
    exact List.not_mem_nil c
  | cons x rest ih =>
    intro p hp
    by_cases h : x = c
    · subst h
      rw [splitChar_cons_eq_sep] at hp
      rcases List.mem_cons.mp hp with h1 | h1
      · subst h1; exact List.not_mem_nil x
      · exact ih p h1
    · rw [splitChar_cons_ne c x rest h] at hp
      rcases hs : splitChar c rest with _ | ⟨q, qs⟩
      · exact absurd hs (splitChar_ne_nil c rest)
      · rw [hs] at hp
        rcases List.mem_cons.mp hp with h1 | h1
        · subst h1
          intro hc
          rcases List.mem_cons.mp hc with h2 | h2
          · exact h h2.symm
          · exact ih q (by rw [hs]; exact List.mem_cons_self q qs) h2
        · exact ih p (by rw [hs]; exact List.mem_cons_of_mem q h1)

/-- Helper: a separator-free string splits into itself alone. -/
theorem splitChar_singleton (c : Char) (w : PyStr) (h : c ∉ w) :
    splitChar c w = [w] := by
  induction w with
  | nil => rfl
  | cons x rest ih =>
    have hx : ¬ x = c := fun he => h (he ▸ List.mem_cons_self x rest)
    have hr : c ∉ rest := fun hm => h (List.mem_cons_of_mem x hm)
    simp only [splitChar, hx, if_false]
    rw [ih hr]

/-- Helper: splitting distributes over a separator occurrence. -/
theorem splitChar_append_sep (c : Char) (a b : PyStr) :
    splitChar c (a ++ c :: b) = splitChar c a ++ splitChar c b := by
  induction a with
  | nil => simp [splitChar]
  | cons x a' ih =>
    by_cases h : x = c
    · rw [show ((x :: a') ++ c :: b) = x :: (a' ++ c :: b) from rfl, h,
        splitChar_cons_eq_sep, ih, splitChar_cons_eq_sep]
      rfl
    · rw [show ((x :: a') ++ c :: b) = x :: (a' ++ c :: b) from rfl,
        splitChar_cons_ne c x _ h, splitChar_cons_ne c x a' h, ih]
      rcases hs : splitChar c a' with _ | ⟨p, ps⟩
      · exact absurd hs (splitChar_ne_nil c a')
      · simp

/-- Helper: splitting a join of separator-free parts recovers the parts. -/
theorem split_join (c : Char) (ps : List PyStr) (hps : ps ≠ [])
    (h : ∀ p ∈ ps, c ∉ p) : splitChar c (joinWith [c] ps) = ps := by
  induction ps with
  | nil => exact absurd rfl hps
  | cons p rest ih =>
    rcases rest with _ | ⟨q, qs⟩
    · exact splitChar_singleton c p (h p (List.mem_singleton.mpr rfl))
    · have hj : joinWith [c] (p :: q :: qs) = p ++ c :: joinWith [c] (q :: qs) := by
        simp [joinWith]
      rw [hj, splitChar_append_sep, splitChar_singleton c p (h p (List.mem_cons_self p _)),
        ih (by simp) (fun r hr => h r (List.mem_cons_of_mem p hr))]
      rfl

/-- Helper: counting a character absent from the string gives zero. -/
theorem countChar_eq_zero (c : Char) (l : PyStr) (h : c ∉ l) : countChar c l = 0 := by
  rw [countChar, List.countP_eq_zero]
  intro x hx
  simp only [decide_eq_true_eq]
  intro he
  exact h (he ▸ hx)

/-- Helper: the separator count of a join of separator-free parts is the
number of separators inserted. -/
theorem countChar_join (c : Char) (ps : List PyStr) (hps : ps ≠ [])
    (h : ∀ p ∈ ps, c ∉ p) : countChar c (joinWith [c] ps) = ps.length - 1 := by
  induction ps with
  | nil => exact absurd rfl hps
  | cons p rest ih =>
    rcases rest with _ | ⟨q, qs⟩
    · simpa using countChar_eq_zero c p (h p (List.mem_singleton.mpr rfl))
    · have hj : joinWith [c] (p :: q :: qs) = p ++ c :: joinWith [c] (q :: qs) := by
        simp [joinWith]
      rw [hj, countChar, List.countP_append, List.countP_cons]
      have h1 : List.countP (fun x => decide (x = c)) p = 0 :=
        countChar_eq_zero c p (h p (List.mem_cons_self p _))
      have h2 : List.countP (fun x => decide (x = c)) (joinWith [c] (q :: qs))
          = (q :: qs).length - 1 :=
        ih (by simp) (fun r hr => h r (List.mem_cons_of_mem p hr))
      rw [h1, h2]
      simp

/-- Helper: the pipe count determines the number of parts. -/
theorem countChar_split_length (c : Char) (l : PyStr) :
    countChar c l = (splitChar c l).length - 1 := by
  conv_lhs => rw [← join_split c l]
  exact countChar_join c (splitChar c l) (splitChar_ne_nil c l) (mem_splitChar_not_sep c l)

/-- Helper: Boolean `contains` agrees with membership. -/
theorem contains_iff_mem (c : Char) (l : PyStr) : l.contains c = true ↔ c ∈ l := by
  simp [List.contains]

end HtmlToMd

namespace HtmlToMd

/-- Helper: characters of a collapsed string come from the input or are
the replacement space. -/
theorem mem_collapseWSAux (y : PyStr) : ∀ b x, x ∈ collapseWSAux b y → x ∈ y ∨ x = ' ' := by
  induction y with
  | nil => intro b x hx; cases hx
  | cons c t ih =>
    intro b x hx
    by_cases hc : pyIsSpace c
    · simp only [collapseWSAux, hc, if_true] at hx
      by_cases hb : b
      · rw [if_pos hb] at hx
        rcases ih true x hx with h | h
        · exact Or.inl (List.mem_cons_of_mem c h)
        · exact Or.inr h
      · rw [if_neg hb] at hx
        rcases List.mem_cons.mp hx with h | h
        · exact Or.inr h
        · rcases ih true x h with h2 | h2
          · exact Or.inl (List.mem_cons_of_mem c h2)
          · exact Or.inr h2
    · simp only [collapseWSAux, hc, if_false] at hx
      rcases List.mem_cons.mp hx with h | h
      · exact Or.inl (h ▸ List.mem_cons_self c t)
      · rcases ih false x h with h2 | h2
        · exact Or.inl (List.mem_cons_of_mem c h2)
        · exact Or.inr h2

/-- Helper: every whitespace character of a collapsed string is `' '`. -/
theorem collapse_space_only (y : PyStr) : ∀ b x, x ∈ collapseWSAux b y →
    pyIsSpace x = true → x = ' ' := by
  induction y with
  | nil => intro b x hx; cases hx
  | cons c t ih =>
    intro b x hx hws
    by_cases hc : pyIsSpace c
    · simp only [collapseWSAux, hc, if_true] at hx
      by_cases hb : b
      · rw [if_pos hb] at hx
        exact ih true x hx hws
      · rw [if_neg hb] at hx
        rcases List.mem_cons.mp hx with h | h
        · exact h
        · exact ih true x h hws
    · simp only [collapseWSAux, hc, if_false] at hx
      rcases List.mem_cons.mp hx with h | h
      · rw [h] at hws; rw [hws] at hc; cases hc rfl
      · exact ih false x h hws

/-- Helper: replacing an absent character is the identity. -/
theorem replaceChar_eq_self (a b : Char) (l : PyStr) (h : a ∉ l) :
    replaceChar a b l = l := by
  induction l with
  | nil => rfl
  | cons x t ih =>
    have hx : ¬ x = a := fun he => h (he ▸ List.mem_cons_self x t)
    have ht : a ∉ t := fun hm => h (List.mem_cons_of_mem x hm)
    simp only [replaceChar, List.map_cons]
    rw [if_neg hx]
    have := ih ht
    simp only [replaceChar] at this
    rw [this]

/-- Helper: the newline replacements in `_clean_table_row` are dead after
whitespace collapsing: a cleaned cell is just strip-then-collapse. -/
theorem cleanCell_eq (p : PyStr) : cleanCell p = collapseWS (pyStrip p) := by
  unfold cleanCell
  have hn : '\n' ∉ collapseWS (pyStrip p) := by
    intro hm
    have := collapse_space_only (pyStrip p) false '\n' hm (by decide)
    cases this
  rw [replaceChar_eq_self '\n' ' ' _ hn]
  have hr : '\r' ∉ collapseWS (pyStrip p) := by
    intro hm
    have := collapse_space_only (pyStrip p) false '\r' hm (by decide)
    cases this
  rw [replaceChar_eq_self '\r' ' ' _ hr]

/-- Helper: a `good` string has no trailing whitespace. -/
theorem good_rstrip (y : PyStr) : ∀ b, good b y = true → pyRstrip y = y := by
  induction y with
  | nil => intro b _; rfl
  | cons c t ih =>
    intro b hg
    by_cases hc : pyIsSpace c
    · simp only [good, hc, if_true, Bool.and_eq_true, decide_eq_true_eq] at hg
      obtain ⟨⟨hsp, hb⟩, hgt⟩ := hg
      have ht := ih true hgt
      rw [pyRstrip_cons, ht]
      by_cases htn : t = []
      · subst htn
        simp only [good] at hgt
        cases hgt
      · rw [if_neg htn]
    · simp only [good, hc, if_false] at hg
      have ht := ih false hg
      rw [pyRstrip_cons, ht]
      by_cases htn : t = []
      · subst htn
        simp [hc]
      · rw [if_neg htn]

/-- Helper: a `good` string is unchanged by whitespace collapsing. -/
theorem good_collapse_id (y : PyStr) : ∀ b, good b y = true → collapseWSAux b y = y := by
  induction y with
  | nil => intro b _; rfl
  | cons c t ih =>
    intro b hg
    by_cases hc : pyIsSpace c
    · simp only [good, hc, if_true, Bool.and_eq_true, decide_eq_true_eq] at hg
      obtain ⟨⟨hsp, hb⟩, hgt⟩ := hg
      simp only [collapseWSAux, hc, if_true]
      rw [if_neg (by simpa using hb), ih true hgt, hsp]
    · have hc' : pyIsSpace c = false := by simpa using hc
      simp only [good, hc', Bool.false_eq_true, if_false] at hg
      simp only [collapseWSAux, hc', Bool.false_eq_true, if_false]
      rw [ih false hg]

/-- Helper: the head left by `dropWhile` does not satisfy the predicate. -/
theorem dropWhile_head_false (q : Char → Bool) (l : PyStr) :
    ∀ c t, l.dropWhile q = c :: t → q c = false := by
  induction l with
  | nil => intro c t h; cases h
  | cons x rest ih =>
    intro c t h
    by_cases hx : q x
    · rw [List.dropWhile_cons, if_pos (by simpa using hx)] at h
      exact ih c t h
    · rw [List.dropWhile_cons, if_neg (by simpa using hx)] at h
      cases h
      simpa using hx

/-- Helper: a stripped string does not start with whitespace. -/
theorem strip_head_not_space (p : PyStr) :
    ∀ c t, pyStrip p = c :: t → pyIsSpace c = false := by
  intro c t h
  rcases hl : pyLstrip p with _ | ⟨c', t'⟩
  · rw [pyStrip, hl] at h
    cases h
  · have hc' : pyIsSpace c' = false := dropWhile_head_false pyIsSpace p c' t' hl
    rw [pyStrip, hl, pyRstrip_cons_nonspace c' t' hc'] at h
    cases h
    exact hc'

/-- Helper: a stripped string does not end with whitespace. -/
theorem strip_last_not_space (p : PyStr) :
    ∀ c t, (pyStrip p).reverse = c :: t → pyIsSpace c = false := by
  intro c t h
  rw [reverse_pyStrip] at h
  exact strip_head_not_space p.reverse c t h

/-- Helper: collapsing a string with a non-whitespace last character
yields a `good` string. -/
theorem good_collapse (y : PyStr)
    (hlast : ∀ c t, y.reverse = c :: t → pyIsSpace c = false) :
    ∀ b, (y ≠ [] ∨ b = false) → good b (collapseWSAux b y) = true := by
  induction y with
  | nil =>
    intro b hb
    rcases hb with h | h
    · cases h rfl
    · subst h; rfl
  | cons c t ih =>
    intro b _
    by_cases hc : pyIsSpace c
    · have htn : t ≠ [] := by
        intro he
        subst he
        have := hlast c [] (by simp)
        rw [this] at hc
        cases hc
      have hlast' : ∀ c' t', t.reverse = c' :: t' → pyIsSpace c' = false := by
        intro c' t' h'
        apply hlast c' (t' ++ [c])
        rw [show (c :: t).reverse = t.reverse ++ [c] from by simp, h']
        rfl
      simp only [collapseWSAux, hc, if_true]
      by_cases hb : b
      · rw [hb, if_pos rfl]
        exact ih hlast' true (Or.inl htn)
      · have hb' : b = false := by simpa using hb
        rw [hb', if_neg (by simp)]
        have hg := ih hlast' true (Or.inl htn)
        simp [good, pyIsSpace, hg]
    · simp only [collapseWSAux, hc, if_false]
      rcases htn : t with _ | ⟨d, ds⟩
      · simp [good, hc]
      · have hlast' : ∀ c' t', t.reverse = c' :: t' → pyIsSpace c' = false := by
          intro c' t' h'
          apply hlast c' (t' ++ [c])
          rw [show (c :: t).reverse = t.reverse ++ [c] from by simp, h']
          rfl
        have hg := ih hlast' false (Or.inr rfl)
        rw [← htn]
        simp [good, hc]
        rw [htn] at hg ⊢
        exact hg

end HtmlToMd

namespace HtmlToMd

/-- Helper: stripping can be done right end first. -/
theorem strip_eq_lstrip_rstrip (l : PyStr) : pyStrip l = pyLstrip (pyRstrip l) := by
  rw [pyStrip, lstrip_rstrip_comm]

/-- Helper: a cleaned cell has no leading whitespace. -/
theorem lstrip_cleanCell (p : PyStr) : pyLstrip (cleanCell p) = cleanCell p := by
  rw [cleanCell_eq]
  rcases hs : pyStrip p with _ | ⟨c, t⟩
  · rfl
  · have hc : pyIsSpace c = false := strip_head_not_space p c t hs
    show pyLstrip (collapseWSAux false (c :: t)) = collapseWSAux false (c :: t)
    rw [show collapseWSAux false (c :: t) = c :: collapseWSAux false t from by
      simp [collapseWSAux, hc]]
    exact pyLstrip_cons_nonspace c _ hc

/-- Helper: a cleaned cell is in whitespace normal form. -/
theorem good_cleanCell (p : PyStr) : good false (cleanCell p) = true := by
  rw [cleanCell_eq]
  exact good_collapse (pyStrip p) (strip_last_not_space p) false (Or.inr rfl)

/-- Helper: a cleaned cell has no trailing whitespace. -/
theorem rstrip_cleanCell (p : PyStr) : pyRstrip (cleanCell p) = cleanCell p :=
  good_rstrip (cleanCell p) false (good_cleanCell p)

/-- Helper: a cleaned cell is already stripped. -/
theorem strip_cleanCell (p : PyStr) : pyStrip (cleanCell p) = cleanCell p := by
  rw [pyStrip, lstrip_cleanCell, rstrip_cleanCell]

/-- Helper: a cleaned cell is already collapsed. -/
theorem collapse_cleanCell (p : PyStr) : collapseWS (cleanCell p) = cleanCell p :=
  good_collapse_id (cleanCell p) false (good_cleanCell p)

/-- Helper: a trailing space does not affect `rstrip`. -/
theorem pyRstrip_append_space (z : PyStr) : pyRstrip (z ++ [' ']) = pyRstrip z := by
  unfold pyRstrip pyRstripBy
  rw [List.reverse_append]
  simp [pyIsSpace]

/-- Helper: stripping undoes the single-space padding of a cell. -/
theorem strip_pad (m : PyStr) : pyStrip (pys " " ++ m ++ pys " ") = pyStrip m := by
  rw [strip_eq_lstrip_rstrip]
  rw [show pys " " ++ m ++ pys " " = (pys " " ++ m) ++ [' '] from by simp [pys]]
  rw [pyRstrip_append_space]
  rw [show pys " " ++ m = ' ' :: m from rfl]
  rw [pyRstrip_cons]
  by_cases hm : pyRstrip m = []
  · rw [hm, if_pos rfl, if_pos (by decide)]
    rw [strip_eq_lstrip_rstrip, hm]
  · rw [if_neg hm, pyLstrip_cons_space ' ' _ (by decide), strip_eq_lstrip_rstrip]

/-- Helper: cleaning a padded cleaned cell changes nothing. -/
theorem cleanCell_idem (p : PyStr) :
    cleanCell (pys " " ++ cleanCell p ++ pys " ") = cleanCell p := by
  rw [cleanCell_eq (pys " " ++ cleanCell p ++ pys " "), strip_pad, strip_cleanCell,
    collapse_cleanCell]

/-- Helper: characters survive `lstrip` membership-wise. -/
theorem mem_pyLstrip (x : Char) (l : PyStr) (h : x ∈ pyLstrip l) : x ∈ l :=
  (List.dropWhile_sublist pyIsSpace).subset h

/-- Helper: characters survive `rstrip` membership-wise. -/
theorem mem_pyRstrip (x : Char) (l : PyStr) (h : x ∈ pyRstrip l) : x ∈ l := by
  unfold pyRstrip pyRstripBy at h
  rw [List.mem_reverse] at h
  have := (List.dropWhile_sublist pyIsSpace).subset h
  exact List.mem_reverse.mp this

/-- Helper: characters survive `strip` membership-wise. -/
theorem mem_pyStrip (x : Char) (l : PyStr) (h : x ∈ pyStrip l) : x ∈ l :=
  mem_pyLstrip x l (mem_pyRstrip x (pyLstrip l) h)

/-- Helper: characters of a cleaned cell come from the cell or are spaces. -/
theorem mem_cleanCell (x : Char) (p : PyStr) (h : x ∈ cleanCell p) : x ∈ p ∨ x = ' ' := by
  rw [cleanCell_eq] at h
  rcases mem_collapseWSAux (pyStrip p) false x h with h1 | h1
  · exact Or.inl (mem_pyStrip x p h1)
  · exact Or.inr h1

end HtmlToMd

namespace HtmlToMd

/-- Helper: stripping ignores a leading space. -/
theorem pyStrip_cons_space (x : Char) (t : PyStr) (h : pyIsSpace x = true) :
    pyStrip (x :: t) = pyStrip t := by
  unfold pyStrip
  rw [pyLstrip_cons_space x t h]

/-- Helper: every string is whitespace, its stripped core, whitespace. -/
theorem strip_decomp (y : PyStr) : ∃ w₁ w₂, y = w₁ ++ pyStrip y ++ w₂
    ∧ (∀ x ∈ w₁, pyIsSpace x = true) ∧ (∀ x ∈ w₂, pyIsSpace x = true) := by
  refine ⟨y.takeWhile pyIsSpace, ((pyLstrip y).reverse.takeWhile pyIsSpace).reverse, ?_, ?_, ?_⟩
  · have : pyStrip y ++ ((pyLstrip y).reverse.takeWhile pyIsSpace).reverse
        = pyLstrip y := by
      have h2 : (pyLstrip y).reverse.takeWhile pyIsSpace ++ (pyLstrip y).reverse.dropWhile pyIsSpace
          = (pyLstrip y).reverse := List.takeWhile_append_dropWhile pyIsSpace (pyLstrip y).reverse
      have h3 := congrArg List.reverse h2
      simp only [List.reverse_append, List.reverse_reverse] at h3
      calc pyStrip y ++ ((pyLstrip y).reverse.takeWhile pyIsSpace).reverse
          = ((pyLstrip y).reverse.dropWhile pyIsSpace).reverse
            ++ ((pyLstrip y).reverse.takeWhile pyIsSpace).reverse := rfl
        _ = pyLstrip y := h3
    rw [List.append_assoc, this]
    exact (List.takeWhile_append_dropWhile pyIsSpace y).symm
  · intro x hx
    exact List.mem_takeWhile_imp hx
  · intro x hx
    exact List.mem_takeWhile_imp (List.mem_reverse.mp hx)

/-- Helper: for a non-whitespace character, membership is unaffected by
stripping. -/
theorem mem_strip_nonws (c : Char) (y : PyStr) (hc : pyIsSpace c = false) :
    c ∈ pyStrip y ↔ c ∈ y := by
  constructor
  · exact mem_pyStrip c y
  · intro h
    obtain ⟨w₁, w₂, hy, h1, h2⟩ := strip_decomp y
    rw [hy] at h
    rcases List.mem_append.mp h with h3 | h3
    · rcases List.mem_append.mp h3 with h4 | h4
      · rw [h1 c h4] at hc; cases hc
      · exact h4
    · rw [h2 c h3] at hc; cases hc

/-- Helper: for a non-whitespace character, counts are unaffected by
stripping. -/
theorem countChar_strip (c : Char) (y : PyStr) (hc : pyIsSpace c = false) :
    countChar c (pyStrip y) = countChar c y := by
  obtain ⟨w₁, w₂, hy, h1, h2⟩ := strip_decomp y
  have hw1 : c ∉ w₁ := fun hm => by rw [h1 c hm] at hc; cases hc
  have hw2 : c ∉ w₂ := fun hm => by rw [h2 c hm] at hc; cases hc
  conv_rhs => rw [hy]
  rw [countChar, countChar, List.countP_append, List.countP_append]
  rw [show List.countP (fun x => decide (x = c)) w₁ = 0 from countChar_eq_zero c w₁ hw1,
    show List.countP (fun x => decide (x = c)) w₂ = 0 from countChar_eq_zero c w₂ hw2]
  omega

/-- Helper: a table row splits into a whitespace head part, middle cells,
and a whitespace tail part. -/
theorem isTableRow_split (l : PyStr) (h : isTableRow l = true) :
    ∃ w₁ mid w₂, splitChar '|' l = w₁ :: (mid ++ [w₂])
      ∧ (∀ x ∈ w₁, pyIsSpace x = true) ∧ (∀ x ∈ w₂, pyIsSpace x = true) := by
  have h' := h
  unfold isTableRow at h'
  simp only [Bool.and_eq_true] at h'
  obtain ⟨⟨hc, hst⟩, hen⟩ := h'
  obtain ⟨w₁, a, hwa, hw1⟩ := strip_starts_decomp l '|' hst
  obtain ⟨b, w₂, hbw, hw2⟩ := strip_ends_decomp l '|' hen
  have hw1p : '|' ∉ w₁ := fun hm => by
    have := hw1 '|' hm
    simp [pyIsSpace] at this
  have hw2p : '|' ∉ w₂ := fun hm => by
    have := hw2 '|' hm
    simp [pyIsSpace] at this
  have hsa : splitChar '|' l = w₁ :: splitChar '|' a := by
    rw [hwa, splitChar_append_sep, splitChar_singleton '|' w₁ hw1p]
    rfl
  have hsb : splitChar '|' l = splitChar '|' b ++ [w₂] := by
    rw [hbw, splitChar_append_sep, splitChar_singleton '|' w₂ hw2p]
  rcases hbs : splitChar '|' b with _ | ⟨r, rs⟩
  · exact absurd hbs (splitChar_ne_nil '|' b)
  · rw [hbs] at hsb
    have heq : w₁ :: splitChar '|' a = r :: (rs ++ [w₂]) := by
      rw [← hsa, hsb]
      rfl
    have ha : splitChar '|' a = rs ++ [w₂] := (List.cons.injEq _ _ _ _ ▸ heq).2
    exact ⟨w₁, rs, w₂, by rw [hsa, ha], hw1, hw2⟩

/-- Helper: the middle-cell loop keeps the final part and pads the rest. -/
theorem cleanMid_append (mid : List PyStr) (w : PyStr) :
    cleanMid (mid ++ [w]) = mid.map rowPad ++ [w] := by
  induction mid with
  | nil => rfl
  | cons p mid' ih =>
    rcases mid' with _ | ⟨q, qs⟩
    · rfl
    · show cleanMid (p :: ((q :: qs) ++ [w])) = _
      rw [show (p :: ((q :: qs) ++ [w])) = p :: q :: (qs ++ [w]) from rfl]
      show rowPad p :: cleanMid (q :: (qs ++ [w])) = _
      rw [show q :: (qs ++ [w]) = (q :: qs) ++ [w] from rfl, ih]
      rfl

/-- Helper: joining at least two parts starts with the first part and a
separator. -/
theorem joinWith_cons₂ (sep : PyStr) (a : PyStr) (rest : List PyStr) (h : rest ≠ []) :
    joinWith sep (a :: rest) = a ++ sep ++ joinWith sep rest := by
  rcases rest with _ | ⟨b, bs⟩
  · exact absurd rfl h
  · rfl

/-- Helper: joining with a final extra part appends a separator and it. -/
theorem joinWith_snoc (sep : PyStr) (c : Char) (ps : List PyStr) (w : PyStr)
    (h : ps ≠ []) (hsep : sep = [c]) :
    joinWith sep (ps ++ [w]) = joinWith sep ps ++ c :: w := by
  subst hsep
  induction ps with
  | nil => exact absurd rfl h
  | cons a rest ih =>
    rcases rest with _ | ⟨b, bs⟩
    · simp [joinWith]
    · rw [show ((a :: b :: bs) ++ [w]) = a :: ((b :: bs) ++ [w]) from rfl]
      rw [joinWith_cons₂ [c] a _ (by simp), ih (by simp)]
      rw [joinWith_cons₂ [c] a (b :: bs) (by simp)]
      simp

/-- Helper: the explicit form of `_clean_table_row` on a table row. -/
theorem cleanTableRow_formula (l : PyStr) (w₁ : PyStr) (mid : List PyStr) (w₂ : PyStr)
    (h : isTableRow l = true) (hs : splitChar '|' l = w₁ :: (mid ++ [w₂])) :
    cleanTableRow l = joinWith (pys "|") (w₁ :: (mid.map rowPad ++ [w₂])) := by
  have h' := h
  unfold isTableRow at h'
  simp only [Bool.and_eq_true] at h'
  obtain ⟨⟨hc, hst⟩, _⟩ := h'
  have hne : ¬ (pyStrip l).isEmpty := by
    rcases hsl : pyStrip l with _ | _
    · rw [hsl] at hst; cases hst
    · simp
  have hcm : '|' ∈ l := (contains_iff_mem '|' l).mp hc
  unfold cleanTableRow
  rw [if_neg (by simp [hne, hcm])]
  rw [hs]
  show joinWith (pys "|") (w₁ :: cleanMid (mid ++ [w₂])) = _
  rw [cleanMid_append]

/-- Helper: characters of padded cleaned cells come from the original or
are spaces. -/
theorem mem_rowPad (x : Char) (p : PyStr) (h : x ∈ rowPad p) : x ∈ p ∨ x = ' ' := by
  unfold rowPad at h
  rcases List.mem_append.mp h with h1 | h1
  · rcases List.mem_append.mp h1 with h2 | h2
    · right
      simpa [pys] using h2
    · exact mem_cleanCell x p h2
  · right
    simpa [pys] using h1

/-- Helper: pipes are preserved by cell cleaning. -/
theorem rowPad_no_pipe (p : PyStr) (h : '|' ∉ p) : '|' ∉ rowPad p := by
  intro hm
  rcases mem_rowPad '|' p hm with h1 | h1
  · exact h h1
  · cases h1

/-- Helper: cleaning a table row preserves its pipe count. -/
theorem countChar_cleanTableRow (l : PyStr) (h : isTableRow l = true) :
    countChar '|' (cleanTableRow l) = countChar '|' l := by
  obtain ⟨w₁, mid, w₂, hs, hw1, hw2⟩ := isTableRow_split l h
  rw [cleanTableRow_formula l w₁ mid w₂ h hs]
  have hparts := mem_splitChar_not_sep '|' l
  have hall : ∀ p ∈ (w₁ :: (mid.map rowPad ++ [w₂])), '|' ∉ p := by
    intro p hp
    rcases List.mem_cons.mp hp with h1 | h1
    · rw [h1]
      exact hparts w₁ (by rw [hs]; exact List.mem_cons_self _ _)
    · rcases List.mem_append.mp h1 with h2 | h2
      · obtain ⟨q, hq, hqp⟩ := List.mem_map.mp h2
        subst hqp
        apply rowPad_no_pipe
        exact hparts q (by
          rw [hs]
          exact List.mem_cons_of_mem w₁ (List.mem_append.mpr (Or.inl hq)))
      · rw [List.mem_singleton.mp h2]
        exact hparts w₂ (by
          rw [hs]
          exact List.mem_cons_of_mem w₁ (List.mem_append.mpr (Or.inr (List.mem_singleton.mpr rfl))))
  rw [show (pys "|") = ['|'] from rfl]
  rw [countChar_join '|' _ (by simp) hall]
  rw [countChar_split_length '|' l, hs]
  simp

/-- Helper: joining with whitespace first part keeps the stripped string
starting with a pipe. -/
theorem startsWith_strip_pipe (w₁ z : PyStr) (hw : ∀ x ∈ w₁, pyIsSpace x = true) :
    startsWithL (pys "|") (pyStrip (w₁ ++ '|' :: z)) = true := by
  induction w₁ with
  | nil =>
    show startsWithL (pys "|") (pyStrip ('|' :: z)) = true
    rw [pyStrip, pyLstrip_cons_nonspace '|' z (by decide),
      pyRstrip_cons_nonspace '|' z (by decide)]
    simp [startsWithL, pys, List.isPrefixOf]
  | cons x w₁' ih =>
    rw [show ((x :: w₁') ++ '|' :: z) = x :: (w₁' ++ '|' :: z) from rfl]
    rw [pyStrip_cons_space x _ (hw x (List.mem_cons_self x w₁'))]
    exact ih (fun y hy => hw y (List.mem_cons_of_mem x hy))

/-- Helper: `rstrip` removes exactly a trailing whitespace block after a
non-whitespace character. -/
theorem rstrip_append_allws (z : PyStr) (c : Char) (w : PyStr)
    (hc : pyIsSpace c = false) (hw : ∀ x ∈ w, pyIsSpace x = true) :
    pyRstrip (z ++ c :: w) = z ++ [c] := by
  unfold pyRstrip pyRstripBy
  rw [List.reverse_append, List.reverse_cons, List.append_assoc]
  rw [List.dropWhile_append]
  have hwrev : w.reverse.dropWhile pyIsSpace = [] := by
    rw [List.dropWhile_eq_nil_iff]
    intro x hx
    exact hw x (List.mem_reverse.mp hx)
  rw [hwrev]
  simp only [List.isEmpty_nil, if_true]
  rw [show [c] ++ z.reverse = c :: z.reverse from rfl, List.dropWhile_cons, hc]
  simp

/-- Helper: joining with whitespace last part keeps the stripped string
ending with a pipe. -/
theorem endsWith_strip_pipe (z w₂ : PyStr) (hw : ∀ x ∈ w₂, pyIsSpace x = true) :
    endsWithL (pys "|") (pyStrip (z ++ '|' :: w₂)) = true := by
  rw [strip_eq_lstrip_rstrip, rstrip_append_allws z '|' w₂ (by decide) hw]
  rw [endsWithL_iff]
  unfold pyLstrip
  rw [List.dropWhile_append]
  by_cases he : (z.dropWhile pyIsSpace).isEmpty
  · rw [if_pos he]
    decide
  · rw [if_neg he]
    exact List.suffix_append (z.dropWhile pyIsSpace) (pys "|")

/-- Helper: cleaning preserves being a table row. -/
theorem isTableRow_cleanTableRow (l : PyStr) (h : isTableRow l = true) :
    isTableRow (cleanTableRow l) = true := by
  obtain ⟨w₁, mid, w₂, hs, hw1, hw2⟩ := isTableRow_split l h
  rw [cleanTableRow_formula l w₁ mid w₂ h hs]
  have hj : joinWith (pys "|") (w₁ :: (mid.map rowPad ++ [w₂]))
      = w₁ ++ '|' :: joinWith (pys "|") (mid.map rowPad ++ [w₂]) := by
    rw [joinWith_cons₂ (pys "|") w₁ _ (by simp)]
    simp [pys]
  have hsnoc : joinWith (pys "|") ((w₁ :: mid.map rowPad) ++ [w₂])
      = joinWith (pys "|") (w₁ :: mid.map rowPad) ++ '|' :: w₂ :=
    joinWith_snoc (pys "|") '|' (w₁ :: mid.map rowPad) w₂ (by simp) rfl
  have hj2 : joinWith (pys "|") (w₁ :: (mid.map rowPad ++ [w₂]))
      = joinWith (pys "|") (w₁ :: mid.map rowPad) ++ '|' :: w₂ := by
    rw [show w₁ :: (mid.map rowPad ++ [w₂]) = (w₁ :: mid.map rowPad) ++ [w₂] from rfl]
    exact hsnoc
  unfold isTableRow
  rw [Bool.and_eq_true, Bool.and_eq_true]
  refine ⟨⟨?_, ?_⟩, ?_⟩
  · rw [contains_iff_mem, hj]
    exact List.mem_append.mpr (Or.inr (List.mem_cons_self '|' _))
  · rw [hj]
    exact startsWith_strip_pipe w₁ _ hw1
  · rw [hj2]
    exact endsWith_strip_pipe _ w₂ hw2

end HtmlToMd

namespace HtmlToMd

/-- Helper: padded cleaning of a cell is idempotent. -/
theorem rowPad_idem (p : PyStr) : rowPad (rowPad p) = rowPad p := by
  show pys " " ++ cleanCell (rowPad p) ++ pys " " = rowPad p
  rw [show cleanCell (rowPad p) = cleanCell (pys " " ++ cleanCell p ++ pys " ") from rfl,
    cleanCell_idem]
  rfl

/-- Helper: the cleaned parts of a table row are pipe-free. -/
theorem cleanParts_no_pipe (l : PyStr) (w₁ : PyStr) (mid : List PyStr) (w₂ : PyStr)
    (hs : splitChar '|' l = w₁ :: (mid ++ [w₂])) :
    ∀ p ∈ (w₁ :: (mid.map rowPad ++ [w₂])), '|' ∉ p := by
  have hparts := mem_splitChar_not_sep '|' l
  intro p hp
  rcases List.mem_cons.mp hp with h1 | h1
  · rw [h1]
    exact hparts w₁ (by rw [hs]; exact List.mem_cons_self _ _)
  · rcases List.mem_append.mp h1 with h2 | h2
    · obtain ⟨q, hq, hqp⟩ := List.mem_map.mp h2
      rw [← hqp]
      apply rowPad_no_pipe
      exact hparts q (by
        rw [hs]
        exact List.mem_cons_of_mem w₁ (List.mem_append.mpr (Or.inl hq)))
    · rw [List.mem_singleton.mp h2]
      exact hparts w₂ (by
        rw [hs]
        exact List.mem_cons_of_mem w₁ (List.mem_append.mpr (Or.inr (List.mem_singleton.mpr rfl))))

/-- Helper: `_clean_table_row` is idempotent on table rows. -/
theorem cleanTableRow_idem (l : PyStr) (h : isTableRow l = true) :
    cleanTableRow (cleanTableRow l) = cleanTableRow l := by
  obtain ⟨w₁, mid, w₂, hs, hw1, hw2⟩ := isTableRow_split l h
  have hform := cleanTableRow_formula l w₁ mid w₂ h hs
  have hCrow : isTableRow (cleanTableRow l) = true := isTableRow_cleanTableRow l h
  have hsplitC : splitChar '|' (cleanTableRow l) = w₁ :: (mid.map rowPad ++ [w₂]) := by
    rw [hform]
    rw [show joinWith (pys "|") (w₁ :: (mid.map rowPad ++ [w₂]))
        = joinWith ['|'] (w₁ :: (mid.map rowPad ++ [w₂])) from rfl]
    exact split_join '|' _ (by simp) (cleanParts_no_pipe l w₁ mid w₂ hs)
  have hform2 := cleanTableRow_formula (cleanTableRow l) w₁ (mid.map rowPad) w₂ hCrow hsplitC
  rw [hform2, hform]
  have hmm : (mid.map rowPad).map rowPad = mid.map rowPad := by
    rw [List.map_map]
    exact List.map_congr_left (fun p _ => rowPad_idem p)
  rw [hmm]

/-- Helper: the absorption loop stops immediately at a stop condition. -/
theorem absorb_cons_stop (tr nl : PyStr) (rest : List PyStr)
    (h : stopCond tr (pyStrip nl) = true) :
    absorb tr (nl :: rest) = (tr, nl :: rest) := by
  simp [absorb, h]

/-- Helper: when nothing is absorbed, the pass is a per-line map. -/
theorem fixLines_noAbsorb (ls : List PyStr) (h : noAbsorb ls = true) :
    fixLines ls = ls.map phiLine := by
  induction ls with
  | nil => rfl
  | cons l rest ih =>
    have h' := h
    simp only [noAbsorb, Bool.and_eq_true] at h'
    obtain ⟨hhead, htail⟩ := h'
    by_cases hr : isTableRow l
    · have habs : absorb l rest = (l, rest) := by
        rcases rest with _ | ⟨nl, rest'⟩
        · rfl
        · rw [hr] at hhead
          simp only [if_true] at hhead
          exact absorb_cons_stop l nl rest' hhead
      rw [fixLines_cons_row l rest hr, habs, ih htail]
      show cleanTableRow l :: _ = phiLine l :: _
      rw [show phiLine l = cleanTableRow l from by simp [phiLine, hr]]
    · rw [fixLines_cons_nonrow l rest (by simpa using hr), ih htail]
      show l :: _ = phiLine l :: _
      rw [show phiLine l = l from by simp [phiLine, hr]]

/-- Helper: the per-line action is idempotent. -/
theorem phiLine_idem (l : PyStr) : phiLine (phiLine l) = phiLine l := by
  by_cases hr : isTableRow l
  · simp [phiLine, hr, isTableRow_cleanTableRow l hr, cleanTableRow_idem l hr]
  · simp [phiLine, hr]

/-- Helper: the per-line action preserves being a table row. -/
theorem isTableRow_phiLine (l : PyStr) : isTableRow (phiLine l) = isTableRow l := by
  by_cases hr : isTableRow l
  · simp [phiLine, hr, isTableRow_cleanTableRow l hr]
  · simp [phiLine, hr]

/-- Helper: membership in a join comes from a part or the separator. -/
theorem mem_joinWith (c : Char) (x : Char) (ps : List PyStr)
    (h : x ∈ joinWith [c] ps) : x = c ∨ ∃ p ∈ ps, x ∈ p := by
  induction ps with
  | nil => cases h
  | cons a rest ih =>
    rcases rest with _ | ⟨b, bs⟩
    · exact Or.inr ⟨a, List.mem_singleton.mpr rfl, h⟩
    · rw [joinWith_cons₂ [c] a (b :: bs) (by simp)] at h
      rcases List.mem_append.mp h with h1 | h1
      · rcases List.mem_append.mp h1 with h2 | h2
        · exact Or.inr ⟨a, List.mem_cons_self a _, h2⟩
        · exact Or.inl (List.mem_singleton.mp h2)
      · rcases ih h1 with h2 | ⟨p, hp, hxp⟩
        · exact Or.inl h2
        · exact Or.inr ⟨p, List.mem_cons_of_mem a hp, hxp⟩

/-- Helper: characters of a part occur in the join. -/
theorem mem_joinWith_of_mem (sep : PyStr) (ps : List PyStr) (p : PyStr) (x : Char)
    (hp : p ∈ ps) (hx : x ∈ p) : x ∈ joinWith sep ps := by
  induction ps with
  | nil => cases hp
  | cons a rest ih =>
    rcases rest with _ | ⟨b, bs⟩
    · show x ∈ a
      rw [← List.mem_singleton.mp hp]
      exact hx
    · rw [joinWith_cons₂ sep a (b :: bs) (by simp)]
      rcases List.mem_cons.mp hp with h1 | h1
      · exact List.mem_append.mpr (Or.inl (List.mem_append.mpr (Or.inl (h1 ▸ hx))))
      · exact List.mem_append.mpr (Or.inr (ih h1))

/-- Helper: characters of a part occur in the parent string. -/
theorem mem_of_mem_splitChar (c x : Char) (l p : PyStr)
    (hp : p ∈ splitChar c l) (hx : x ∈ p) : x ∈ l := by
  rw [← join_split c l]
  exact mem_joinWith_of_mem [c] (splitChar c l) p x hp hx

end HtmlToMd

namespace HtmlToMd

/-- Helper: Boolean substring containment decides list-infix. -/
theorem containsSub_iff (pat s : PyStr) : containsSub pat s = true ↔ pat <:+: s := by
  induction s with
  | nil =>
    simp only [containsSub, List.isEmpty_iff, List.infix_nil]
  | cons c rest ih =>
    simp only [containsSub, Bool.or_eq_true, startsWithL_iff, ih, List.infix_cons_iff]

/-- Helper: a prefix avoiding a character stops before that character. -/
theorem prefix_stop_before (pat : PyStr) (c : Char) (hc : c ∉ pat) :
    ∀ a b : PyStr, pat <+: (a ++ c :: b) → pat <+: a := by
  induction pat with
  | nil => intro a b _; exact List.nil_prefix
  | cons p pat' ih =>
    intro a b h
    rcases a with _ | ⟨x, a'⟩
    · obtain ⟨hp, _⟩ := List.cons_prefix_cons.mp h
      exact absurd (hp ▸ List.mem_cons_self p pat') hc
    · obtain ⟨hp, htail⟩ := List.cons_prefix_cons.mp h
      have hc' : c ∉ pat' := fun hm => hc (List.mem_cons_of_mem p hm)
      exact List.cons_prefix_cons.mpr ⟨hp, ih hc' a' b htail⟩

/-- Helper: an occurrence of a separator-free pattern lies on one side of
a separator. -/
theorem infix_append_sep (pat : PyStr) (c : Char) (hc : c ∉ pat) :
    ∀ a b : PyStr, pat <:+: (a ++ c :: b) → pat <:+: a ∨ pat <:+: b := by
  intro a
  induction a with
  | nil =>
    intro b h
    rw [List.nil_append] at h
    rcases List.infix_cons_iff.mp h with h1 | h1
    · rcases pat with _ | ⟨p, pat'⟩
      · exact Or.inl (List.nil_infix)
      · obtain ⟨hp, _⟩ := List.cons_prefix_cons.mp h1
        exact absurd (hp ▸ List.mem_cons_self p pat') hc
    · exact Or.inr h1
  | cons x a' ih =>
    intro b h
    rw [List.cons_append] at h
    rcases List.infix_cons_iff.mp h with h1 | h1
    · have := prefix_stop_before pat c hc (x :: a') b (by simpa using h1)
      exact Or.inl this.isInfix
    · rcases ih b h1 with h2 | h2
      · exact Or.inl (h2.trans (List.infix_cons (List.infix_refl a')))
      · exact Or.inr h2

/-- Helper: a non-whitespace pattern cannot occur in a leading whitespace
block. -/
theorem infix_drop_ws_left (pat : PyStr) (hne : pat ≠ [])
    (hnw : ∀ x ∈ pat, pyIsSpace x = false) :
    ∀ w z : PyStr, (∀ x ∈ w, pyIsSpace x = true) → pat <:+: (w ++ z) → pat <:+: z := by
  intro w
  induction w with
  | nil => intro z _ h; simpa using h
  | cons x w' ih =>
    intro z hw h
    rw [List.cons_append] at h
    rcases List.infix_cons_iff.mp h with h1 | h1
    · rcases pat with _ | ⟨p, pat'⟩
      · exact absurd rfl hne
      · obtain ⟨hp, _⟩ := List.cons_prefix_cons.mp h1
        have h2 := hnw p (List.mem_cons_self p pat')
        have h3 := hw x (List.mem_cons_self x w')
        rw [hp, h3] at h2
        cases h2
    · exact ih z (fun y hy => hw y (List.mem_cons_of_mem x hy)) h1

/-- Helper: a non-whitespace pattern cannot occur in a trailing whitespace
block. -/
theorem infix_drop_ws_right (pat : PyStr) (hne : pat ≠ [])
    (hnw : ∀ x ∈ pat, pyIsSpace x = false) (z w : PyStr)
    (hw : ∀ x ∈ w, pyIsSpace x = true) (h : pat <:+: (z ++ w)) : pat <:+: z := by
  have hrev : pat.reverse <:+: (w.reverse ++ z.reverse) := by
    have := List.reverse_infix.mpr h
    simpa using this
  have h2 : pat.reverse <:+: z.reverse :=
    infix_drop_ws_left pat.reverse (by simpa using hne)
      (fun x hx => hnw x (List.mem_reverse.mp hx)) w.reverse z.reverse
      (fun x hx => hw x (List.mem_reverse.mp hx)) hrev
  have := List.reverse_infix.mpr h2
  simpa using this

/-- Helper: occurrences of non-whitespace patterns survive stripping, in
both directions. -/
theorem infix_strip_iff (pat : PyStr) (hne : pat ≠ [])
    (hnw : ∀ x ∈ pat, pyIsSpace x = false) (y : PyStr) :
    pat <:+: pyStrip y ↔ pat <:+: y := by
  obtain ⟨w₁, w₂, hy, h1, h2⟩ := strip_decomp y
  constructor
  · intro h
    exact h.trans ⟨w₁, w₂, hy.symm⟩
  · intro h
    rw [hy, List.append_assoc] at h
    have h3 := infix_drop_ws_left pat hne hnw w₁ (pyStrip y ++ w₂) h1 h
    exact infix_drop_ws_right pat hne hnw (pyStrip y) w₂ h2 h3

/-- Helper: non-whitespace prefixes survive whitespace collapsing. -/
theorem prefix_collapse (pat : PyStr) (hnw : ∀ x ∈ pat, pyIsSpace x = false) :
    ∀ (t : PyStr) (b : Bool), pat <+: t → pat <+: collapseWSAux b t := by
  induction pat with
  | nil => intro t b _; exact List.nil_prefix
  | cons p pat' ih =>
    intro t b h
    rcases t with _ | ⟨c, t'⟩
    · simp at h
    · obtain ⟨hp, htail⟩ := List.cons_prefix_cons.mp h
      have hpns : pyIsSpace c = false := by
        rw [← hp]
        exact hnw p (List.mem_cons_self p pat')
      simp only [collapseWSAux, hpns, Bool.false_eq_true, if_false]
      exact List.cons_prefix_cons.mpr ⟨hp,
        ih (fun x hx => hnw x (List.mem_cons_of_mem p hx)) t' false htail⟩

/-- Helper: occurrences of nonempty non-whitespace patterns survive
whitespace collapsing. -/
theorem infix_collapse (pat : PyStr) (hne : pat ≠ [])
    (hnw : ∀ x ∈ pat, pyIsSpace x = false) :
    ∀ (t : PyStr) (b : Bool), pat <:+: t → pat <:+: collapseWSAux b t := by
  intro t
  induction t with
  | nil =>
    intro b h
    rw [List.infix_nil] at h
    exact absurd h hne
  | cons c t' ih =>
    intro b h
    rcases List.infix_cons_iff.mp h with h1 | h1
    · by_cases hc : pyIsSpace c
      · rcases pat with _ | ⟨p, pat'⟩
        · exact absurd rfl hne
        · obtain ⟨hp, _⟩ := List.cons_prefix_cons.mp h1
          have := hnw p (List.mem_cons_self p pat')
          rw [hp, hc] at this
          cases this
      · exact (prefix_collapse pat hnw (c :: t') b h1).isInfix
    · have h2 := ih true h1
      by_cases hc : pyIsSpace c
      · simp only [collapseWSAux, hc, if_true]
        by_cases hb : b
        · rw [hb, if_pos rfl]
          exact h2
        · rw [show b = false from by simpa using hb, if_neg (by simp)]
          exact h2.trans (List.infix_cons (List.infix_refl _))
      · have hc' : pyIsSpace c = false := by simpa using hc
        simp only [collapseWSAux, hc', Bool.false_eq_true, if_false]
        exact (ih false h1).trans (List.infix_cons (List.infix_refl _))

/-- Helper: occurrences in a part occur in the join. -/
theorem part_infix_join (sep : PyStr) (ps : List PyStr) (p : PyStr) (hp : p ∈ ps) :
    p <:+: joinWith sep ps := by
  induction ps with
  | nil => cases hp
  | cons a rest ih =>
    rcases rest with _ | ⟨b, bs⟩
    · rw [List.mem_singleton.mp hp]
      exact List.infix_refl a
    · rw [joinWith_cons₂ sep a (b :: bs) (by simp)]
      rcases List.mem_cons.mp hp with h1 | h1
      · rw [h1]
        exact ((List.prefix_append a sep).trans (List.prefix_append _ _)).isInfix
      · exact (ih h1).trans ⟨a ++ sep, [], by simp⟩

/-- Helper: an occurrence of a separator-free pattern lies inside one part
of the join. -/
theorem infix_join_parts (c : Char) (pat : PyStr) (hc : c ∉ pat) :
    ∀ ps : List PyStr, ps ≠ [] → pat <:+: joinWith [c] ps → ∃ p ∈ ps, pat <:+: p := by
  intro ps
  induction ps with
  | nil => intro h _; exact absurd rfl h
  | cons a rest ih =>
    intro _ h
    rcases rest with _ | ⟨b, bs⟩
    · exact ⟨a, List.mem_singleton.mpr rfl, h⟩
    · rw [joinWith_cons₂ [c] a (b :: bs) (by simp)] at h
      rw [show a ++ [c] ++ joinWith [c] (b :: bs) = a ++ c :: joinWith [c] (b :: bs) from by simp] at h
      rcases infix_append_sep pat c hc a _ h with h1 | h1
      · exact ⟨a, List.mem_cons_self a _, h1⟩
      · obtain ⟨p, hp, hinf⟩ := ih (by simp) h1
        exact ⟨p, List.mem_cons_of_mem a hp, hinf⟩

end HtmlToMd

namespace HtmlToMd

/-- Helper: occurrences of nonempty non-whitespace patterns survive cell
cleaning. -/
theorem infix_cleanCell (pat : PyStr) (hne : pat ≠ [])
    (hnw : ∀ x ∈ pat, pyIsSpace x = false) (p : PyStr) (h : pat <:+: p) :
    pat <:+: cleanCell p := by
  rw [cleanCell_eq]
  exact infix_collapse pat hne hnw (pyStrip p) false
    ((infix_strip_iff pat hne hnw p).mpr h)

/-- Helper: occurrences survive the single-space padding of a cleaned
cell. -/
theorem infix_rowPad (pat : PyStr) (hne : pat ≠ [])
    (hnw : ∀ x ∈ pat, pyIsSpace x = false) (p : PyStr) (h : pat <:+: p) :
    pat <:+: rowPad p :=
  (infix_cleanCell pat hne hnw p h).trans ⟨pys " ", pys " ", rfl⟩

/-- Helper: a `---` separator marker inside a stripped table row survives
row cleaning. -/
theorem containsSub_dashes_clean (l : PyStr) (h : isTableRow l = true)
    (hd : containsSub (pys "---") (pyStrip l) = true) :
    containsSub (pys "---") (pyStrip (cleanTableRow l)) = true := by
  have hne : (pys "---") ≠ [] := by decide
  have hnw : ∀ x ∈ (pys "---"), pyIsSpace x = false := by decide
  have hpipe : '|' ∉ (pys "---") := by decide
  have h1 : (pys "---") <:+: pyStrip l := (containsSub_iff _ _).mp hd
  have h2 : (pys "---") <:+: l := (infix_strip_iff _ hne hnw l).mp h1
  obtain ⟨w₁, mid, w₂, hs, hw1, hw2⟩ := isTableRow_split l h
  have h3 : (pys "---") <:+: joinWith ['|'] (splitChar '|' l) := by
    rw [join_split]
    exact h2
  obtain ⟨p, hp, hpinf⟩ :=
    infix_join_parts '|' (pys "---") hpipe (splitChar '|' l) (splitChar_ne_nil '|' l) h3
  rw [hs] at hp
  have hform := cleanTableRow_formula l w₁ mid w₂ h hs
  have hc : (pys "---") <:+: cleanTableRow l := by
    rw [hform]
    rcases List.mem_cons.mp hp with h4 | h4
    · exact (h4 ▸ hpinf).trans
        (part_infix_join (pys "|") _ w₁ (List.mem_cons_self _ _))
    · rcases List.mem_append.mp h4 with h5 | h5
      · exact (infix_rowPad _ hne hnw p hpinf).trans
          (part_infix_join (pys "|") _ (rowPad p)
            (List.mem_cons_of_mem w₁
              (List.mem_append.mpr (Or.inl (List.mem_map.mpr ⟨p, h5, rfl⟩)))))
      · rw [List.mem_singleton.mp h5] at hpinf
        exact hpinf.trans
          (part_infix_join (pys "|") _ w₂
            (List.mem_cons_of_mem w₁
              (List.mem_append.mpr (Or.inr (List.mem_singleton.mpr rfl)))))
  exact (containsSub_iff _ _).mpr ((infix_strip_iff _ hne hnw _).mpr hc)

/-- Helper: membership decides positivity of the character count. -/
theorem mem_iff_countChar_pos (c : Char) (l : PyStr) :
    c ∈ l ↔ 0 < countChar c l := by
  unfold countChar
  rw [List.countP_pos_iff]
  constructor
  · intro h
    exact ⟨c, h, by simp⟩
  · rintro ⟨a, ha, hac⟩
    have : a = c := by simpa using hac
    exact this ▸ ha

/-- Helper: cleaning a table row keeps a pipe character present. -/
theorem contains_pipe_clean (l : PyStr) (h : isTableRow l = true)
    (hm : '|' ∈ l) : '|' ∈ cleanTableRow l := by
  rw [mem_iff_countChar_pos, countChar_cleanTableRow l h]
  exact (mem_iff_countChar_pos '|' l).mp hm

end HtmlToMd

namespace HtmlToMd

/-- Helper: a table row's stop condition survives the per-line cleaning of
both lines. -/
theorem stopCond_phi (l nl : PyStr) (hl : isTableRow l = true)
    (h : stopCond l (pyStrip nl) = true) :
    stopCond (cleanTableRow l) (pyStrip (phiLine nl)) = true := by
  by_cases hr : isTableRow nl
  · rw [show phiLine nl = cleanTableRow nl from by simp [phiLine, hr]]
    have hrow := hr
    unfold isTableRow at hrow
    simp only [Bool.and_eq_true] at hrow
    obtain ⟨⟨hcnl, hstnl⟩, _⟩ := hrow
    have hCrow := isTableRow_cleanTableRow nl hr
    unfold isTableRow at hCrow
    simp only [Bool.and_eq_true] at hCrow
    obtain ⟨⟨_, hstC⟩, henC⟩ := hCrow
    have hmemC : '|' ∈ pyStrip (cleanTableRow nl) := by
      rw [mem_strip_nonws '|' _ (by decide)]
      exact contains_pipe_clean nl hr ((contains_iff_mem '|' nl).mp hcnl)
    have hcontC : (pyStrip (cleanTableRow nl)).contains '|' = true :=
      (contains_iff_mem _ _).mpr hmemC
    have hcount : countChar '|' (pyStrip (cleanTableRow nl)) = countChar '|' (pyStrip nl) := by
      rw [countChar_strip '|' _ (by decide), countChar_cleanTableRow nl hr,
        countChar_strip '|' nl (by decide)]
    have hmem : '|' ∈ pyStrip nl := by
      rw [mem_strip_nonws '|' nl (by decide)]
      exact (contains_iff_mem '|' nl).mp hcnl
    simp only [stopCond, Bool.or_eq_true, Bool.and_eq_true, decide_eq_true_eq] at h ⊢
    rcases h with (h1 | h1) | h1
    · exact Or.inl (Or.inl ⟨hcontC, containsSub_dashes_clean nl hr h1.2⟩)
    · refine Or.inl (Or.inr ⟨⟨⟨hcontC, hstC⟩, henC⟩, ?_⟩)
      rw [hcount, countChar_cleanTableRow l hl]
      exact h1.2
    · exfalso
      rcases h1 with h2 | h2
      · have := (startsWithL_iff _ _).mp hstnl
        rw [List.isEmpty_iff.mp h2] at this
        exact absurd (List.prefix_nil.mp this) (by decide)
      · rw [(contains_iff_mem '|' (pyStrip nl)).mpr hmem] at h2
        simp at h2
  · rw [show phiLine nl = nl from by simp [phiLine, hr]]
    unfold stopCond at h ⊢
    rw [countChar_cleanTableRow l hl]
    exact h

/-- Helper: unfolding the no-absorption predicate at two leading lines. -/
theorem noAbsorb_cons₂ (a b : PyStr) (rest : List PyStr) :
    noAbsorb (a :: b :: rest)
      = ((if isTableRow a then stopCond a (pyStrip b) else true)
          && noAbsorb (b :: rest)) := rfl

/-- Helper: the per-line cleaning map preserves the no-absorption
property. -/
theorem noAbsorb_map_phi (ls : List PyStr) (h : noAbsorb ls = true) :
    noAbsorb (ls.map phiLine) = true := by
  induction ls with
  | nil => rfl
  | cons l rest ih =>
    rcases rest with _ | ⟨nl, rest'⟩
    · simp [noAbsorb]
    · rw [noAbsorb_cons₂, Bool.and_eq_true] at h
      obtain ⟨hhead, htail⟩ := h
      have ih' := ih htail
      rw [List.map_cons, List.map_cons, noAbsorb_cons₂, Bool.and_eq_true]
      constructor
      · rw [isTableRow_phiLine l]
        by_cases hrow : isTableRow l
        · rw [if_pos hrow]
          rw [if_pos hrow] at hhead
          rw [show phiLine l = cleanTableRow l from by simp [phiLine, hrow]]
          exact stopCond_phi l nl hrow hhead
        · rw [if_neg hrow]
      · rw [← List.map_cons]
        exact ih'

/-- Helper: parts produced by the middle-cell loop are original parts or
their paddings. -/
theorem mem_cleanMid (ps : List PyStr) (q : PyStr) (hq : q ∈ cleanMid ps) :
    q ∈ ps ∨ ∃ p ∈ ps, q = rowPad p := by
  induction ps with
  | nil => cases hq
  | cons p ps' ih =>
    rcases ps' with _ | ⟨r, rs⟩
    · exact Or.inl hq
    · have hq' : q ∈ rowPad p :: cleanMid (r :: rs) := hq
      rcases List.mem_cons.mp hq' with h1 | h1
      · exact Or.inr ⟨p, List.mem_cons_self p _, h1⟩
      · rcases ih h1 with h2 | ⟨p', hp', he⟩
        · exact Or.inl (List.mem_cons_of_mem p h2)
        · exact Or.inr ⟨p', List.mem_cons_of_mem p hp', he⟩

/-- Helper: characters of a cleaned row come from the original line or are
spaces. -/
theorem mem_cleanTableRow (x : Char) (l : PyStr) (h : x ∈ cleanTableRow l) :
    x ∈ l ∨ x = ' ' := by
  unfold cleanTableRow at h
  by_cases hg : (pyStrip l).isEmpty || !(l.contains '|')
  · rw [if_pos hg] at h
    exact Or.inl h
  · rw [if_neg hg] at h
    rcases hs : splitChar '|' l with _ | ⟨p0, rest⟩
    · rw [hs] at h
      exact Or.inl h
    · rw [hs] at h
      have h2 := mem_joinWith '|' x (p0 :: cleanMid rest) h
      rcases h2 with h3 | ⟨q, hq, hxq⟩
      · rw [h3]
        left
        have : '|' ∈ l := by
          rcases hb : l.contains '|' with _ | _
          · rw [hb] at hg
            simp at hg
          · exact (contains_iff_mem '|' l).mp hb
        exact this
      · rcases List.mem_cons.mp hq with h4 | h4
        · left
          exact mem_of_mem_splitChar '|' x l q (by rw [hs, h4]; exact List.mem_cons_self _ _) hxq
        · rcases mem_cleanMid rest q h4 with h5 | ⟨p', hp', he⟩
          · left
            exact mem_of_mem_splitChar '|' x l q
              (by rw [hs]; exact List.mem_cons_of_mem p0 h5) hxq
          · rw [he] at hxq
            rcases mem_rowPad x p' hxq with h6 | h6
            · left
              exact mem_of_mem_splitChar '|' x l p'
                (by rw [hs]; exact List.mem_cons_of_mem p0 hp') h6
            · exact Or.inr h6

/-- Helper: the per-line cleaning introduces no newline characters. -/
theorem phiLine_no_newline (l : PyStr) (h : '\n' ∉ l) : '\n' ∉ phiLine l := by
  by_cases hr : isTableRow l
  · rw [show phiLine l = cleanTableRow l from by simp [phiLine, hr]]
    intro hm
    rcases mem_cleanTableRow '\n' l hm with h1 | h1
    · exact h h1
    · cases h1
  · rw [show phiLine l = l from by simp [phiLine, hr]]
    exact h

end HtmlToMd

namespace HtmlToMd

/-- C6 (counterexample): the repair pass is not idempotent in general.
On `| a | b |` over `| c ||` over `e|` the first pass absorbs the `e|`
continuation line into the second row, producing a row with fewer pipes
than its predecessor; the second pass then absorbs that row into the
first, so the two outputs differ. -/
theorem c6_counterexample :
    fixMarkdownTables (fixMarkdownTables (pys "| a | b |\n| c ||\ne|"))
      ≠ fixMarkdownTables (pys "| a | b |\n| c ||\ne|")
    ∧ fixMarkdownTables (pys "| a | b |\n| c ||\ne|") = pys "| a | b |\n| c e |"
    ∧ fixMarkdownTables (fixMarkdownTables (pys "| a | b |\n| c ||\ne|"))
      = pys "| a | b | c e |" := by
  refine ⟨by decide, by decide, by decide⟩

/-- C6 (amended): the repair pass is idempotent on every input in which no
continuation line is absorbed, i.e. every table row is immediately followed
by one of the look-ahead loop's stop conditions (or by the end of input).
On such input the pass acts line by line — cleaning table rows, keeping
other lines — and that per-line action is idempotent and preserves the
no-absorption property, so a second pass changes nothing. -/
theorem c6_repair_idempotent_noAbsorb (s : PyStr)
    (h : noAbsorb (splitChar '\n' s) = true) :
    fixMarkdownTables (fixMarkdownTables s) = fixMarkdownTables s := by
  have h1 : fixLines (splitChar '\n' s) = (splitChar '\n' s).map phiLine :=
    fixLines_noAbsorb _ h
  have hnl : ∀ p ∈ (splitChar '\n' s).map phiLine, '\n' ∉ p := by
    intro p hp
    obtain ⟨q, hq, hpq⟩ := List.mem_map.mp hp
    rw [← hpq]
    exact phiLine_no_newline q (mem_splitChar_not_sep '\n' s q hq)
  have hne : (splitChar '\n' s).map phiLine ≠ [] := by
    intro hmap
    exact splitChar_ne_nil '\n' s (List.map_eq_nil_iff.mp hmap)
  have hsplit : splitChar '\n' (joinWith (pys "\n") ((splitChar '\n' s).map phiLine))
      = (splitChar '\n' s).map phiLine := by
    rw [show (pys "\n") = ['\n'] from rfl]
    exact split_join '\n' _ hne hnl
  unfold fixMarkdownTables
  rw [h1, hsplit, fixLines_noAbsorb _ (noAbsorb_map_phi _ h)]
  rw [List.map_map]
  congr 1
  exact List.map_congr_left (fun p _ => phiLine_idem p)

/-- C6 witness: a concrete no-absorption input on which a second repair
pass changes nothing. -/
theorem c6_repair_idempotent_noAbsorb_witness :
    noAbsorb (splitChar '\n' (pys "| a |\n| --- |\nx")) = true
    ∧ fixMarkdownTables (fixMarkdownTables (pys "| a |\n| --- |\nx"))
      = fixMarkdownTables (pys "| a |\n| --- |\nx") :=
  ⟨by decide, c6_repair_idempotent_noAbsorb (pys "| a |\n| --- |\nx") (by decide)⟩

end HtmlToMd
